import Mathlib

/-
Verification of the core analysis pass of vite-plugin-shadcn-registry
(src/index.ts): the classifier, the graph walker, the closure builder and
the registry store, shallowly embedded over executable Lean definitions.

JavaScript `Map` objects are modelled as insertion-ordered association
lists (`mapGet` / `mapSet`), and `Set` objects as insertion-ordered
duplicate-free lists (`setAdd`).
-/

namespace ShadcnRegistry

/-- Lookup in an insertion-ordered association list, as `Map.prototype.get`. -/
def mapGet {α : Type} (m : List (String × α)) (k : String) : Option α :=
  (m.find? (fun p => p.1 = k)).map (·.2)

/-- Update in an insertion-ordered association list, as `Map.prototype.set`:
an existing key keeps its position and gets the new value, a fresh key is
appended at the end. -/
def mapSet {α : Type} (m : List (String × α)) (k : String) (v : α) : List (String × α) :=
  if m.any (fun p => p.1 = k) then
    m.map (fun p => if p.1 = k then (k, v) else p)
  else
    m ++ [(k, v)]

/-- Insertion into an insertion-ordered duplicate-free list, as
`Set.prototype.add`. -/
def setAdd (s : List String) (x : String) : List String :=
  if x ∈ s then s else s ++ [x]

theorem mapGet_eq_none_iff {α : Type} (m : List (String × α)) (k : String) :
    mapGet m k = none ↔ ∀ p ∈ m, p.1 ≠ k := by
  unfold mapGet
  constructor
  · intro h p hp hk
    rcases Option.map_eq_none'.mp h with hfind
    have := List.find?_eq_none.mp hfind p hp
    simp [hk] at this
  · intro h
    rw [Option.map_eq_none']
    exact List.find?_eq_none.mpr (fun p hp => by simp [h p hp])

theorem mapGet_isSome_of_mem {α : Type} {m : List (String × α)} {p : String × α}
    (hp : p ∈ m) : (mapGet m p.1).isSome := by
  cases h : mapGet m p.1 with
  | some v => rfl
  | none => exact absurd rfl ((mapGet_eq_none_iff m p.1).mp h p hp)

theorem mem_of_mapGet_eq_some {α : Type} {m : List (String × α)} {k : String} {v : α}
    (h : mapGet m k = some v) : (k, v) ∈ m := by
  unfold mapGet at h
  rcases Option.map_eq_some'.mp h with ⟨p, hfind, hv⟩
  have hmem := List.mem_of_find?_eq_some hfind
  have hkey : p.1 = k := by
    have := List.find?_some hfind
    simpa using this
  cases p with
  | mk a b => cases hkey; cases hv; exact hmem

theorem mapGet_of_nodup_mem {α : Type} {m : List (String × α)} {p : String × α}
    (hnd : (m.map Prod.fst).Nodup) (hp : p ∈ m) : mapGet m p.1 = some p.2 := by
  induction m with
  | nil => cases hp
  | cons q rest ih =>
    rcases List.mem_cons.mp hp with h | h
    · subst h
      unfold mapGet
      rw [List.find?_cons_of_pos _ (by simp)]
      rfl
    · have hnd' : (rest.map Prod.fst).Nodup := (List.nodup_cons.mp hnd).2
      have hq : q.1 ∉ rest.map Prod.fst := (List.nodup_cons.mp hnd).1
      have hne : q.1 ≠ p.1 := by
        intro he
        exact hq (he ▸ List.mem_map_of_mem Prod.fst h)
      unfold mapGet
      rw [List.find?_cons_of_neg _ (by simp [hne])]
      exact ih hnd' h

theorem mapGet_replace_self {α : Type} (m : List (String × α)) (k : String) (v : α)
    (hany : m.any (fun p => p.1 = k)) :
    mapGet (m.map (fun p => if p.1 = k then (k, v) else p)) k = some v := by
  induction m with
  | nil => cases hany
  | cons q rest ih =>
    by_cases hq : q.1 = k
    · unfold mapGet
      rw [List.map_cons, if_pos hq, List.find?_cons_of_pos _ (by simp)]
      rfl
    · unfold mapGet
      rw [List.map_cons, if_neg hq, List.find?_cons_of_neg _ (by simp [hq])]
      rcases List.any_eq_true.mp hany with ⟨p, hp, hpk⟩
      rcases List.mem_cons.mp hp with h | h
      · exact absurd (h ▸ of_decide_eq_true hpk) hq
      · exact ih (List.any_eq_true.mpr ⟨p, h, hpk⟩)

theorem mapGet_replace_ne {α : Type} (m : List (String × α)) (k k' : String) (v : α)
    (hne : k' ≠ k) :
    mapGet (m.map (fun p => if p.1 = k then (k, v) else p)) k' = mapGet m k' := by
  induction m with
  | nil => rfl
  | cons q rest ih =>
    by_cases hq : q.1 = k
    · unfold mapGet
      rw [List.map_cons, if_pos hq]
      rw [List.find?_cons_of_neg _ (by simp [Ne.symm hne]),
        List.find?_cons_of_neg _ (by simp [hq ▸ Ne.symm hne])]
      exact ih
    · unfold mapGet
      rw [List.map_cons, if_neg hq]
      by_cases hqk' : q.1 = k'
      · rw [List.find?_cons_of_pos _ (by simp [hqk']),
          List.find?_cons_of_pos _ (by simp [hqk'])]
      · rw [List.find?_cons_of_neg _ (by simp [hqk']),
          List.find?_cons_of_neg _ (by simp [hqk'])]
        exact ih

theorem mapGet_mapSet_self {α : Type} (m : List (String × α)) (k : String) (v : α) :
    mapGet (mapSet m k v) k = some v := by
  unfold mapSet
  by_cases hany : m.any (fun p => decide (p.1 = k))
  · rw [if_pos hany]
    exact mapGet_replace_self m k v hany
  · rw [if_neg hany]
    have hnone : mapGet m k = none := by
      rw [mapGet_eq_none_iff]
      intro p hp hk
      exact hany (List.any_eq_true.mpr ⟨p, hp, by simp [hk]⟩)
    unfold mapGet at hnone ⊢
    rw [List.find?_append]
    rw [Option.map_eq_none'] at hnone
    rw [hnone]
    rw [List.find?_cons_of_pos _ (by simp)]
    rfl

theorem mapGet_mapSet_ne {α : Type} (m : List (String × α)) (k k' : String) (v : α)
    (hne : k' ≠ k) : mapGet (mapSet m k v) k' = mapGet m k' := by
  unfold mapSet
  by_cases hany : m.any (fun p => decide (p.1 = k))
  · rw [if_pos hany]
    exact mapGet_replace_ne m k k' v hne
  · rw [if_neg hany]
    unfold mapGet
    rw [List.find?_append]
    have hsingle : List.find? (fun pr : String × α => pr.1 = k') [(k, v)] = none := by
      rw [List.find?_cons_of_neg _ (by simp [Ne.symm hne])]
      rfl
    rw [hsingle]
    cases List.find? (fun pr : String × α => decide (pr.1 = k')) m <;> rfl

theorem mem_mapSet {α : Type} {m : List (String × α)} {k : String} {v : α} {p : String × α}
    (hp : p ∈ mapSet m k v) : p = (k, v) ∨ p ∈ m := by
  unfold mapSet at hp
  by_cases hany : m.any (fun q => decide (q.1 = k))
  · rw [if_pos hany] at hp
    rcases List.mem_map.mp hp with ⟨q, hq, he⟩
    by_cases hqk : q.1 = k
    · rw [if_pos hqk] at he
      exact Or.inl he.symm
    · rw [if_neg hqk] at he
      exact Or.inr (he ▸ hq)
  · rw [if_neg hany] at hp
    rcases List.mem_append.mp hp with h | h
    · exact Or.inr h
    · simp at h
      exact Or.inl h

theorem keys_mapSet_of_mem {α : Type} {m : List (String × α)} {k : String} (v : α)
    (hk : m.any (fun p => p.1 = k)) :
    (mapSet m k v).map Prod.fst = m.map Prod.fst := by
  unfold mapSet
  rw [if_pos hk, List.map_map]
  apply List.map_congr_left
  intro p _
  by_cases hp : p.1 = k
  · simp [hp]
  · simp [hp]

theorem keys_mapSet_of_not_mem {α : Type} {m : List (String × α)} {k : String} (v : α)
    (hk : ¬ m.any (fun p => p.1 = k)) :
    (mapSet m k v).map Prod.fst = m.map Prod.fst ++ [k] := by
  unfold mapSet
  rw [if_neg hk]
  simp

theorem keys_mapSet_nodup {α : Type} {m : List (String × α)} {k : String} (v : α)
    (hnd : (m.map Prod.fst).Nodup) : ((mapSet m k v).map Prod.fst).Nodup := by
  by_cases hk : m.any (fun p => decide (p.1 = k))
  · rw [keys_mapSet_of_mem v hk]
    exact hnd
  · rw [keys_mapSet_of_not_mem v hk]
    rw [List.nodup_append]
    refine ⟨hnd, List.nodup_singleton k, ?_⟩
    intro a ha hb
    simp only [List.mem_singleton] at hb
    subst hb
    rcases List.mem_map.mp ha with ⟨p, hp, hpk⟩
    exact hk (List.any_eq_true.mpr ⟨p, hp, by simp [hpk]⟩)

theorem mem_keys_mapSet {α : Type} {m : List (String × α)} {k : String} {v : α} {x : String} :
    x ∈ (mapSet m k v).map Prod.fst ↔ x ∈ m.map Prod.fst ∨ x = k := by
  constructor
  · intro hx
    rcases List.mem_map.mp hx with ⟨p, hp, he⟩
    rcases mem_mapSet hp with h | h
    · subst h
      exact Or.inr he.symm
    · exact Or.inl (he ▸ List.mem_map_of_mem Prod.fst h)
  · intro hx
    rcases hx with h | h
    · rcases List.mem_map.mp h with ⟨p, hp, he⟩
      subst he
      by_cases hpk : p.1 = k
      · rw [hpk]
        unfold mapSet
        by_cases hany : m.any (fun q => decide (q.1 = k))
        · rw [if_pos hany]
          exact List.mem_map.mpr ⟨(k, v), List.mem_map.mpr ⟨p, hp, by simp [hpk]⟩, rfl⟩
        · rw [if_neg hany]
          simp
      · unfold mapSet
        by_cases hany : m.any (fun q => decide (q.1 = k))
        · rw [if_pos hany]
          exact List.mem_map.mpr ⟨p, List.mem_map.mpr ⟨p, hp, by simp [hpk]⟩, rfl⟩
        · rw [if_neg hany]
          simp [List.mem_map.mpr ⟨p, hp, rfl⟩]
    · subst h
      unfold mapSet
      by_cases hany : m.any (fun q => decide (q.1 = x))
      · rw [if_pos hany]
        rcases List.any_eq_true.mp hany with ⟨p, hp, hpk⟩
        have hpk' : p.1 = x := of_decide_eq_true hpk
        exact List.mem_map.mpr ⟨(x, v), List.mem_map.mpr ⟨p, hp, by simp [hpk']⟩, rfl⟩
      · rw [if_neg hany]
        simp

theorem mem_setAdd {s : List String} {x y : String} :
    y ∈ setAdd s x ↔ y ∈ s ∨ y = x := by
  unfold setAdd
  by_cases hx : x ∈ s
  · rw [if_pos hx]
    constructor
    · exact Or.inl
    · intro h
      rcases h with h | h
      · exact h
      · exact h ▸ hx
  · rw [if_neg hx]
    simp

theorem setAdd_nodup {s : List String} {x : String} (hnd : s.Nodup) :
    (setAdd s x).Nodup := by
  unfold setAdd
  by_cases hx : x ∈ s
  · rw [if_pos hx]; exact hnd
  · rw [if_neg hx]
    rw [List.nodup_append]
    refine ⟨hnd, List.nodup_singleton x, ?_⟩
    intro a ha hb
    simp only [List.mem_singleton] at hb
    subst hb
    exact hx ha

theorem subset_setAdd {s : List String} {x : String} : s ⊆ setAdd s x := by
  intro y hy
  exact mem_setAdd.mpr (Or.inl hy)

theorem mem_setAdd_self {s : List String} {x : String} : x ∈ setAdd s x :=
  mem_setAdd.mpr (Or.inr rfl)

theorem foldl_setAdd_mem {l : List String} {s : List String} {x : String} :
    x ∈ l.foldl setAdd s ↔ x ∈ s ∨ x ∈ l := by
  induction l generalizing s with
  | nil => simp
  | cons a rest ih =>
    simp only [List.foldl_cons]
    rw [ih, mem_setAdd]
    constructor
    · intro h
      rcases h with (h | h) | h
      · exact Or.inl h
      · exact Or.inr (List.mem_cons.mpr (Or.inl h))
      · exact Or.inr (List.mem_cons.mpr (Or.inr h))
    · intro h
      rcases h with h | h
      · exact Or.inl (Or.inl h)
      · rcases List.mem_cons.mp h with h | h
        · exact Or.inl (Or.inr h)
        · exact Or.inr h

theorem foldl_setAdd_nodup {l : List String} {s : List String} (hnd : s.Nodup) :
    (l.foldl setAdd s).Nodup := by
  induction l generalizing s with
  | nil => exact hnd
  | cons a rest ih => exact ih (setAdd_nodup hnd)

theorem foldl_setAdd_length_le {l : List String} {s : List String} :
    s.length ≤ (l.foldl setAdd s).length := by
  induction l generalizing s with
  | nil => exact Nat.le_refl _
  | cons a rest ih =>
    refine Nat.le_trans ?_ (ih (s := setAdd s a))
    unfold setAdd
    by_cases hx : a ∈ s
    · rw [if_pos hx]
    · rw [if_neg hx]
      simp

/-- Split a character list at every slash, keeping empty pieces. -/
def splitSlash : List Char → List (List Char)
  | [] => [[]]
  | c :: rest =>
    if c = '/' then [] :: splitSlash rest
    else
      match splitSlash rest with
      | [] => [[c]]
      | w :: ws => (c :: w) :: ws

/-- The non-empty slash-separated segments of a character list. -/
def pathSegsL (cs : List Char) : List String :=
  ((splitSlash cs).filter (fun w => ¬ w.isEmpty)).map (fun w => String.mk w)

/-- The non-empty slash-separated segments of a POSIX path. -/
def pathSegs (p : String) : List String := pathSegsL p.data

/-- Join path segments with slashes (no leading or trailing slash). -/
def joinSegs : List String → String
  | [] => ""
  | [s] => s
  | s :: rest => s ++ "/" ++ joinSegs rest

/-- Rebuild a path from segments, with a leading slash when absolute. -/
def segsToPath (abs : Bool) (segs : List String) : String :=
  (if abs then "/" else "") ++ joinSegs segs

/-- Does the string start with a slash, over the character list. -/
def isAbsolutePath (p : String) : Bool :=
  match p.data with
  | c :: _ => c = '/'
  | [] => false

/-- Models node:path posix `join` on normalized inputs: the segment lists are
concatenated and the result is absolute exactly when the first path is. -/
def posixJoin (a b : String) : String :=
  segsToPath (isAbsolutePath a) (pathSegs a ++ pathSegs b)

/-- Drop the longest common prefix of two segment lists, returning both rests. -/
def dropCommonSegs : List String → List String → List String × List String
  | a :: as', b :: bs => if a = b then dropCommonSegs as' bs else (a :: as', b :: bs)
  | as', bs => (as', bs)

/-- Models node:path posix `relative` on normalized absolute paths: one `..`
per remaining segment of the start path, then the remaining segments of the
destination path. -/
def posixRelative (fromPath toPath : String) : String :=
  joinSegs (List.replicate (dropCommonSegs (pathSegs fromPath) (pathSegs toPath)).1.length ".."
    ++ (dropCommonSegs (pathSegs fromPath) (pathSegs toPath)).2)

/-- The length of the extension-free prefix of a base name's character list:
the characters before the last dot. -/
def extFreeLen (cs : List Char) : Nat :=
  cs.length - (cs.reverse.takeWhile (fun c => ¬ c = '.')).length - 1

/-- Models the `name` field of node:path posix `parse` applied to a base name:
everything before the last dot, except that a lone leading dot is kept. -/
def stripExt (base : String) : String :=
  if (base.data.reverse.takeWhile (fun c => ¬ c = '.')).length = base.data.length then base
  else if extFreeLen base.data = 0 then base
  else String.mk (base.data.take (extFreeLen base.data))

/-- Models the `dir` and `name` fields of node:path posix `parse` for the
normalized relative paths produced by `posixRelative`. -/
def parsePathDirName (p : String) : String × String :=
  (joinSegs (pathSegs p).dropLast, stripExt (((pathSegs p).getLast?).getD ""))

/-- Remove the first slash of a character list, as the JavaScript
`dir.replace("/", "")` with a plain string pattern (first occurrence only). -/
def replaceFirstSlashChars : List Char → List Char
  | [] => []
  | c :: rest => if c = '/' then rest else c :: replaceFirstSlashChars rest

/-- String wrapper for `replaceFirstSlashChars`. -/
def replaceFirstSlash (s : String) : String :=
  String.mk (replaceFirstSlashChars s.data)

/-- Split into alphanumeric words as the change-case library does: a
non-alphanumeric character separates words, and an upper-case letter starts a
new word after a lower-case letter or digit, or before a lower-case letter. -/
def splitWordsAux : List Char → List Char → List (List Char)
  | [], cur => [cur.reverse]
  | c :: rest, cur =>
    if ¬ (c.isAlpha ∨ c.isDigit) then cur.reverse :: splitWordsAux rest []
    else if c.isUpper then
      match cur with
      | [] => splitWordsAux rest [c]
      | p :: _ =>
        if p.isLower ∨ p.isDigit then cur.reverse :: splitWordsAux rest [c]
        else
          match rest with
          | r :: _ =>
            if r.isLower then cur.reverse :: splitWordsAux rest [c]
            else splitWordsAux rest (c :: cur)
          | [] => splitWordsAux rest (c :: cur)
    else splitWordsAux rest (c :: cur)

/-- Join words with dashes. -/
def joinDash : List String → String
  | [] => ""
  | [w] => w
  | w :: rest => w ++ "-" ++ joinDash rest

/-- Models `kebabCase` from the change-case package: split into words, lower
the case and join with dashes. -/
def kebabCase (s : String) : String :=
  joinDash (((splitWordsAux s.data []).filter (fun w => ¬ w.isEmpty)).map
    (fun w => String.mk (w.map Char.toLower)))

/-- Models `fileURLToPath(new URL(id, "file://"))` for module ids that are
absolute POSIX paths without percent-escapes: the URL pathname is the prefix
of the id before the first query or fragment delimiter, and converting that
URL back to a path returns the prefix unchanged. -/
def getRegistryItemPath (id : String) : String :=
  String.mk (id.data.takeWhile (fun c => ¬ (c = '?' ∨ c = '#')))

/-- The project-root-relative path of a module id (source: getLocalFilePath). -/
def getLocalFilePath (id configRootDir : String) : String :=
  posixRelative configRootDir (getRegistryItemPath id)

/-- Derive the catalog name of a module id from the configured root directory
and a registry-type directory (source: getRegistryItemName): parse the path
relative to `configRootDir/registryItemType`, take the dir with its first
slash removed, or else the base name, and kebab-case it. -/
def getRegistryItemName (id configRootDir registryItemType : String) : String :=
  kebabCase
    (if replaceFirstSlash
        (parsePathDirName
          (posixRelative (posixJoin configRootDir registryItemType) (getRegistryItemPath id))).1 = ""
     then (parsePathDirName
        (posixRelative (posixJoin configRootDir registryItemType) (getRegistryItemPath id))).2
     else replaceFirstSlash
        (parsePathDirName
          (posixRelative (posixJoin configRootDir registryItemType) (getRegistryItemPath id))).1)

theorem splitSlash_nil : splitSlash [] = [[]] := rfl

theorem splitSlash_cons_slash (rest : List Char) :
    splitSlash ('/' :: rest) = [] :: splitSlash rest := by
  show (if '/' = '/' then [] :: splitSlash rest else _) = [] :: splitSlash rest
  rw [if_pos rfl]

theorem splitSlash_cons_ne (c : Char) (rest : List Char) (hc : c ≠ '/') :
    splitSlash (c :: rest) =
      match splitSlash rest with
      | [] => [[c]]
      | w :: ws => (c :: w) :: ws := by
  show (if c = '/' then _ else _) = _
  rw [if_neg hc]

theorem splitSlash_ne_nil (cs : List Char) : splitSlash cs ≠ [] := by
  cases cs with
  | nil => simp [splitSlash_nil]
  | cons c rest =>
    by_cases hc : c = '/'
    · subst hc
      rw [splitSlash_cons_slash]
      simp
    · rw [splitSlash_cons_ne c rest hc]
      cases splitSlash rest <;> simp

theorem splitSlash_append_slash (xs ys : List Char) :
    splitSlash (xs ++ '/' :: ys) = splitSlash xs ++ splitSlash ys := by
  induction xs with
  | nil =>
    rw [List.nil_append, splitSlash_cons_slash, splitSlash_nil]
    rfl
  | cons c rest ih =>
    by_cases hc : c = '/'
    · subst hc
      rw [List.cons_append, splitSlash_cons_slash, splitSlash_cons_slash, ih]
      rfl
    · rw [List.cons_append, splitSlash_cons_ne c _ hc, splitSlash_cons_ne c rest hc, ih]
      rcases hne : splitSlash rest with _ | ⟨w, ws⟩
      · exact absurd hne (splitSlash_ne_nil rest)
      · simp

theorem splitSlash_no_slash (cs : List Char) (h : ∀ c ∈ cs, c ≠ '/') :
    splitSlash cs = [cs] := by
  induction cs with
  | nil => rfl
  | cons c rest ih =>
    rw [splitSlash_cons_ne c rest (h c (List.mem_cons_self c rest))]
    rw [ih (fun x hx => h x (List.mem_cons_of_mem c hx))]

theorem data_append (a b : String) : (a ++ b).data = a.data ++ b.data := rfl

theorem mk_data (s : String) : String.mk s.data = s := rfl

theorem mk_eq_empty_iff (cs : List Char) : String.mk cs = "" ↔ cs = [] := by
  constructor
  · intro h
    have : (String.mk cs).data = ("" : String).data := by rw [h]
    simpa using this
  · intro h
    rw [h]

theorem pathSegsL_append_slash (xs ys : List Char) :
    pathSegsL (xs ++ '/' :: ys) = pathSegsL xs ++ pathSegsL ys := by
  unfold pathSegsL
  rw [splitSlash_append_slash, List.filter_append, List.map_append]

theorem pathSegsL_no_slash (cs : List Char) (hne : cs ≠ []) (h : ∀ c ∈ cs, c ≠ '/') :
    pathSegsL cs = [String.mk cs] := by
  unfold pathSegsL
  rw [splitSlash_no_slash cs h]
  have hemp : cs.isEmpty = false := by
    cases hd : cs with
    | nil => exact absurd hd hne
    | cons c rest => rfl
  simp [List.filter, hemp]

theorem pathSegs_append_slash (a b : String) :
    pathSegs (a ++ "/" ++ b) = pathSegs a ++ pathSegs b := by
  unfold pathSegs
  have hdata : (a ++ "/" ++ b).data = a.data ++ '/' :: b.data := by
    rw [data_append, data_append, List.append_assoc]
    rfl
  rw [hdata, pathSegsL_append_slash]

theorem pathSegs_no_slash (s : String) (hne : s.data ≠ []) (h : ∀ c ∈ s.data, c ≠ '/') :
    pathSegs s = [s] := by
  unfold pathSegs
  rw [pathSegsL_no_slash s.data hne h, mk_data]

theorem data_eq_nil_iff (s : String) : s.data = [] ↔ s = "" := by
  constructor
  · intro h
    have := congrArg String.mk h
    rw [mk_data] at this
    exact this
  · intro h
    rw [h]

theorem takeWhile_eq_self {p : Char → Bool} {l : List Char} (h : ∀ c ∈ l, p c = true) :
    l.takeWhile p = l := by
  induction l with
  | nil => rfl
  | cons c rest ih =>
    rw [List.takeWhile_cons_of_pos (h c (List.mem_cons_self c rest))]
    rw [ih (fun x hx => h x (List.mem_cons_of_mem c hx))]

theorem getRegistryItemPath_eq_self (s : String)
    (h : ∀ c ∈ s.data, c ≠ '?' ∧ c ≠ '#') : getRegistryItemPath s = s := by
  unfold getRegistryItemPath
  rw [takeWhile_eq_self (fun c hc => by simp [(h c hc).1, (h c hc).2]), mk_data]

theorem replaceFirstSlash_no_slash (s : String) (h : ∀ c ∈ s.data, c ≠ '/') :
    replaceFirstSlash s = s := by
  unfold replaceFirstSlash
  have haux : ∀ cs : List Char, (∀ c ∈ cs, c ≠ '/') → replaceFirstSlashChars cs = cs := by
    intro cs hcs
    induction cs with
    | nil => rfl
    | cons c rest ih =>
      unfold replaceFirstSlashChars
      rw [if_neg (hcs c (List.mem_cons_self c rest))]
      rw [ih (fun x hx => hcs x (List.mem_cons_of_mem c hx))]
  rw [haux s.data h, mk_data]

theorem dropCommonSegs_self_append (s t : List String) :
    dropCommonSegs s (s ++ t) = ([], t) := by
  induction s with
  | nil =>
    cases t with
    | nil => rfl
    | cons a rest => rfl
  | cons a rest ih =>
    show (if a = a then dropCommonSegs rest (rest ++ t) else _) = _
    rw [if_pos rfl, ih]

theorem splitSlash_chars {cs : List Char} {w : List Char} {c : Char}
    (hw : w ∈ splitSlash cs) (hc : c ∈ w) : c ∈ cs ∧ c ≠ '/' := by
  induction cs generalizing w with
  | nil =>
    rw [splitSlash_nil] at hw
    simp only [List.mem_singleton] at hw
    subst hw
    cases hc
  | cons a rest ih =>
    by_cases ha : a = '/'
    · subst ha
      rw [splitSlash_cons_slash] at hw
      rcases List.mem_cons.mp hw with h | h
      · subst h
        cases hc
      · rcases ih h hc with ⟨h1, h2⟩
        exact ⟨List.mem_cons_of_mem _ h1, h2⟩
    · rw [splitSlash_cons_ne a rest ha] at hw
      rcases hne : splitSlash rest with _ | ⟨w0, ws⟩
      · exact absurd hne (splitSlash_ne_nil rest)
      · rw [hne] at hw
        rcases List.mem_cons.mp hw with h | h
        · subst h
          rcases List.mem_cons.mp hc with h | h
          · subst h
            exact ⟨List.mem_cons_self _ _, ha⟩
          · rcases ih (w := w0) (by rw [hne]; exact List.mem_cons_self _ _) h with ⟨h1, h2⟩
            exact ⟨List.mem_cons_of_mem _ h1, h2⟩
        · rcases ih (w := w) (by rw [hne]; exact List.mem_cons_of_mem _ h) hc with ⟨h1, h2⟩
          exact ⟨List.mem_cons_of_mem _ h1, h2⟩

theorem pathSegs_chars {p : String} {s : String} (hs : s ∈ pathSegs p) :
    s ≠ "" ∧ ∀ c ∈ s.data, c ∈ p.data ∧ c ≠ '/' := by
  unfold pathSegs at hs
  rcases List.mem_map.mp hs with ⟨w, hw, he⟩
  rcases List.mem_filter.mp hw with ⟨hwmem, hwne⟩
  subst he
  constructor
  · rw [Ne, mk_eq_empty_iff]
    intro h
    rw [h] at hwne
    simp [List.isEmpty] at hwne
  · intro c hc
    exact splitSlash_chars hwmem hc

theorem joinSegs_chars {segs : List String} {c : Char}
    (hc : c ∈ (joinSegs segs).data) : (∃ s ∈ segs, c ∈ s.data) ∨ c = '/' := by
  induction segs with
  | nil => cases hc
  | cons s rest ih =>
    cases rest with
    | nil =>
      exact Or.inl ⟨s, List.mem_singleton_self s, hc⟩
    | cons t rest' =>
      have : (joinSegs (s :: t :: rest')).data = s.data ++ '/' :: (joinSegs (t :: rest')).data := by
        show (s ++ "/" ++ joinSegs (t :: rest')).data = _
        rw [data_append, data_append, List.append_assoc]
        rfl
      rw [this] at hc
      rcases List.mem_append.mp hc with h | h
      · exact Or.inl ⟨s, List.mem_cons_self _ _, h⟩
      · rcases List.mem_cons.mp h with h | h
        · exact Or.inr h
        · rcases ih h with ⟨u, hu, hcu⟩ | h
          · exact Or.inl ⟨u, List.mem_cons_of_mem _ hu, hcu⟩
          · exact Or.inr h

theorem posixJoin_chars {a b : String} {c : Char}
    (hc : c ∈ (posixJoin a b).data) : c ∈ a.data ∨ c ∈ b.data ∨ c = '/' := by
  unfold posixJoin segsToPath at hc
  rw [data_append] at hc
  rcases List.mem_append.mp hc with h | h
  · by_cases habs : isAbsolutePath a
    · rw [if_pos habs] at h
      have : c = '/' := by
        have hd : ("/" : String).data = ['/'] := rfl
        rw [hd] at h
        simpa using h
      exact Or.inr (Or.inr this)
    · rw [if_neg habs] at h
      cases h
  · rcases joinSegs_chars h with ⟨s, hs, hcs⟩ | h
    · rcases List.mem_append.mp hs with hseg | hseg
      · exact Or.inl ((pathSegs_chars hseg).2 c hcs).1
      · exact Or.inr (Or.inl ((pathSegs_chars hseg).2 c hcs).1)
    · exact Or.inr (Or.inr h)

theorem stripExt_append_ts (name : String) (hne : name.data ≠ []) :
    stripExt (name ++ ".ts") = name := by
  have hdata : (name ++ ".ts").data = name.data ++ ['.', 't', 's'] := by
    rw [data_append]
  have hrev : (name.data ++ ['.', 't', 's']).reverse = 's' :: 't' :: '.' :: name.data.reverse := by
    rw [List.reverse_append]
    rfl
  have htw : (name ++ ".ts").data.reverse.takeWhile (fun c => decide (¬ c = '.')) = ['s', 't'] := by
    rw [hdata, hrev]
    rw [List.takeWhile_cons_of_pos (by decide), List.takeWhile_cons_of_pos (by decide),
      List.takeWhile_cons_of_neg (by decide)]
  have hn : name.data.length ≠ 0 := by
    intro h
    exact hne (List.length_eq_zero.mp h)
  have hlen : (name ++ ".ts").data.length = name.data.length + 3 := by
    rw [hdata, List.length_append]
    rfl
  have hfree : extFreeLen (name ++ ".ts").data = name.data.length := by
    unfold extFreeLen
    rw [htw, hlen]
    simp only [List.length_cons, List.length_nil]
    omega
  unfold stripExt
  rw [htw, hlen, hfree]
  have h3 : ¬ (['s', 't'] : List Char).length = name.data.length + 3 := by
    simp only [List.length_cons, List.length_nil]
    omega
  rw [if_neg h3, if_neg hn, hdata]
  rw [List.take_left' rfl, mk_data]

/-- A character list free of URL query and fragment delimiters. -/
def CleanQ (cs : List Char) : Prop := ∀ c ∈ cs, c ≠ '?' ∧ c ≠ '#'

instance (cs : List Char) : Decidable (CleanQ cs) := by
  unfold CleanQ
  infer_instance

theorem cleanQ_append {xs ys : List Char} (hx : CleanQ xs) (hy : CleanQ ys) :
    CleanQ (xs ++ ys) := by
  intro c hc
  rcases List.mem_append.mp hc with h | h
  · exact hx c h
  · exact hy c h

theorem cleanQ_cons {c : Char} {xs : List Char} (hc : c ≠ '?' ∧ c ≠ '#') (hx : CleanQ xs) :
    CleanQ (c :: xs) := by
  intro d hd
  rcases List.mem_cons.mp hd with h | h
  · exact h ▸ hc
  · exact hx d h

theorem cleanQ_posixJoin {a b : String} (ha : CleanQ a.data) (hb : CleanQ b.data) :
    CleanQ (posixJoin a b).data := by
  intro c hc
  rcases posixJoin_chars hc with h | h | h
  · exact ha c h
  · exact hb c h
  · rw [h]
    exact ⟨by decide, by decide⟩

theorem posixRelative_of_segs (a b : String) (T : List String)
    (h : pathSegs b = pathSegs a ++ T) : posixRelative a b = joinSegs T := by
  unfold posixRelative
  rw [h, dropCommonSegs_self_append]
  rfl

theorem getRegistryItemName_of_segs (configRoot typ id : String) (T : List String)
    (hpath : getRegistryItemPath id = id)
    (hsegs : pathSegs id = pathSegs (posixJoin configRoot typ) ++ T) :
    getRegistryItemName id configRoot typ =
      kebabCase (if replaceFirstSlash (parsePathDirName (joinSegs T)).1 = ""
                 then (parsePathDirName (joinSegs T)).2
                 else replaceFirstSlash (parsePathDirName (joinSegs T)).1) := by
  unfold getRegistryItemName
  rw [hpath, posixRelative_of_segs _ _ T hsegs]

theorem pathSegs_of_single (s : String) (hne : s ≠ "") (h : ∀ c ∈ s.data, c ≠ '/') :
    pathSegsL s.data = [s] := by
  rw [pathSegsL_no_slash s.data (fun hd => hne ((data_eq_nil_iff s).mp hd)) h, mk_data]

/-- Derived name for a module laid out as `<root>/<typ>/<name>/index.ts`. -/
theorem getRegistryItemName_dir_index (configRoot typ name : String)
    (hq1 : CleanQ configRoot.data) (hq2 : CleanQ typ.data) (hq3 : CleanQ name.data)
    (hslash : ∀ c ∈ name.data, c ≠ '/') (hne : name ≠ "") :
    getRegistryItemName (posixJoin configRoot typ ++ "/" ++ name ++ "/index.ts") configRoot typ
      = kebabCase name := by
  have hid_data : (posixJoin configRoot typ ++ "/" ++ name ++ "/index.ts").data
      = (posixJoin configRoot typ).data ++ '/' :: (name.data ++ '/' :: ("index.ts" : String).data) := by
    simp only [data_append, List.append_assoc]
    rfl
  have hsegsname : pathSegsL name.data = [name] := pathSegs_of_single name hne hslash
  have hsegsidx : pathSegsL (("index.ts" : String).data) = ["index.ts"] := by decide
  have hsegs : pathSegs (posixJoin configRoot typ ++ "/" ++ name ++ "/index.ts")
      = pathSegs (posixJoin configRoot typ) ++ [name, "index.ts"] := by
    show pathSegsL (posixJoin configRoot typ ++ "/" ++ name ++ "/index.ts").data = _
    rw [hid_data, pathSegsL_append_slash, pathSegsL_append_slash, hsegsname, hsegsidx]
    rfl
  have hpath : getRegistryItemPath (posixJoin configRoot typ ++ "/" ++ name ++ "/index.ts")
      = posixJoin configRoot typ ++ "/" ++ name ++ "/index.ts" := by
    apply getRegistryItemPath_eq_self
    rw [hid_data]
    exact cleanQ_append (cleanQ_posixJoin hq1 hq2)
      (cleanQ_cons (by decide) (cleanQ_append hq3 (cleanQ_cons (by decide) (by decide))))
  rw [getRegistryItemName_of_segs configRoot typ _ [name, "index.ts"] hpath hsegs]
  have hjoin : joinSegs [name, "index.ts"] = name ++ "/" ++ "index.ts" := rfl
  have hsegs2 : pathSegs (name ++ "/" ++ "index.ts") = [name, "index.ts"] := by
    rw [pathSegs_append_slash]
    show pathSegsL name.data ++ pathSegsL (("index.ts" : String).data) = _
    rw [hsegsname, hsegsidx]
    rfl
  have hparse : parsePathDirName (joinSegs [name, "index.ts"]) = (name, "index") := by
    unfold parsePathDirName
    rw [hjoin, hsegs2]
    show (joinSegs [name], stripExt "index.ts") = (name, "index")
    have hse : stripExt "index.ts" = "index" := by decide
    rw [hse]
    rfl
  rw [hparse]
  have hrep : replaceFirstSlash name = name := replaceFirstSlash_no_slash name hslash
  show kebabCase (if replaceFirstSlash name = "" then "index" else replaceFirstSlash name)
    = kebabCase name
  rw [hrep, if_neg hne]

/-- Derived name for a module laid out as `<root>/<typ>/<name>.ts`. -/
theorem getRegistryItemName_single_file (configRoot typ name : String)
    (hq1 : CleanQ configRoot.data) (hq2 : CleanQ typ.data) (hq3 : CleanQ name.data)
    (hslash : ∀ c ∈ name.data, c ≠ '/') (hne : name ≠ "") :
    getRegistryItemName (posixJoin configRoot typ ++ "/" ++ name ++ ".ts") configRoot typ
      = kebabCase name := by
  have hid_data : (posixJoin configRoot typ ++ "/" ++ name ++ ".ts").data
      = (posixJoin configRoot typ).data ++ '/' :: (name ++ ".ts").data := by
    simp only [data_append, List.append_assoc]
    rfl
  have hts_ne : (name ++ ".ts") ≠ "" := by
    intro h
    have := (data_eq_nil_iff _).mpr h
    rw [data_append] at this
    simp at this
  have hts_slash : ∀ c ∈ (name ++ ".ts").data, c ≠ '/' := by
    have hts : ∀ c ∈ ((".ts" : String)).data, c ≠ '/' := by decide
    intro c hc
    rw [data_append] at hc
    rcases List.mem_append.mp hc with h | h
    · exact hslash c h
    · exact hts c h
  have hsegsts : pathSegsL ((name ++ ".ts") : String).data = [name ++ ".ts"] :=
    pathSegs_of_single (name ++ ".ts") hts_ne hts_slash
  have hsegs : pathSegs (posixJoin configRoot typ ++ "/" ++ name ++ ".ts")
      = pathSegs (posixJoin configRoot typ) ++ [name ++ ".ts"] := by
    show pathSegsL (posixJoin configRoot typ ++ "/" ++ name ++ ".ts").data = _
    rw [hid_data, pathSegsL_append_slash, hsegsts]
    rfl
  have hpath : getRegistryItemPath (posixJoin configRoot typ ++ "/" ++ name ++ ".ts")
      = posixJoin configRoot typ ++ "/" ++ name ++ ".ts" := by
    apply getRegistryItemPath_eq_self
    rw [hid_data]
    refine cleanQ_append (cleanQ_posixJoin hq1 hq2) (cleanQ_cons (by decide) ?_)
    rw [data_append]
    exact cleanQ_append hq3 (by decide)
  rw [getRegistryItemName_of_segs configRoot typ _ [name ++ ".ts"] hpath hsegs]
  have hjoin : joinSegs [name ++ ".ts"] = name ++ ".ts" := rfl
  have hsegs2 : pathSegs (name ++ ".ts") = [name ++ ".ts"] := hsegsts
  have hparse : parsePathDirName (joinSegs [name ++ ".ts"]) = ("", name) := by
    unfold parsePathDirName
    rw [hjoin, hsegs2]
    show (joinSegs [], stripExt (name ++ ".ts")) = ("", name)
    rw [stripExt_append_ts name (fun hd => hne ((data_eq_nil_iff name).mp hd))]
    rfl
  rw [hparse]
  show kebabCase (if replaceFirstSlash "" = "" then name else replaceFirstSlash "") = kebabCase name
  rw [if_pos (show replaceFirstSlash "" = "" from rfl)]

/-- Derived name for a flat utility module laid out as
`<root>/src/utils/<fileBase>`: the parent directory segment `utils` wins. -/
theorem getRegistryItemName_utils (configRoot fileBase : String)
    (hq1 : CleanQ configRoot.data) (hq3 : CleanQ fileBase.data)
    (hslash : ∀ c ∈ fileBase.data, c ≠ '/') (hne : fileBase ≠ "") :
    getRegistryItemName (posixJoin configRoot "src" ++ "/utils/" ++ fileBase) configRoot "src"
      = "utils" := by
  have hid_data : (posixJoin configRoot "src" ++ "/utils/" ++ fileBase).data
      = (posixJoin configRoot "src").data ++ '/' :: (("utils" : String).data ++ '/' :: fileBase.data) := by
    simp only [data_append, List.append_assoc]
    rfl
  have hsegsu : pathSegsL (("utils" : String)).data = ["utils"] := by decide
  have hsegsf : pathSegsL fileBase.data = [fileBase] := pathSegs_of_single fileBase hne hslash
  have hsegs : pathSegs (posixJoin configRoot "src" ++ "/utils/" ++ fileBase)
      = pathSegs (posixJoin configRoot "src") ++ ["utils", fileBase] := by
    show pathSegsL (posixJoin configRoot "src" ++ "/utils/" ++ fileBase).data = _
    rw [hid_data, pathSegsL_append_slash, pathSegsL_append_slash, hsegsu, hsegsf]
    rfl
  have hpath : getRegistryItemPath (posixJoin configRoot "src" ++ "/utils/" ++ fileBase)
      = posixJoin configRoot "src" ++ "/utils/" ++ fileBase := by
    apply getRegistryItemPath_eq_self
    rw [hid_data]
    exact cleanQ_append (cleanQ_posixJoin hq1 (by decide))
      (cleanQ_cons (by decide) (cleanQ_append (by decide) (cleanQ_cons (by decide) hq3)))
  rw [getRegistryItemName_of_segs configRoot "src" _ ["utils", fileBase] hpath hsegs]
  have hjoin : joinSegs ["utils", fileBase] = "utils" ++ "/" ++ fileBase := rfl
  have hsegs2 : pathSegs ("utils" ++ "/" ++ fileBase) = ["utils", fileBase] := by
    rw [pathSegs_append_slash]
    show pathSegsL (("utils" : String)).data ++ pathSegsL fileBase.data = _
    rw [hsegsu, hsegsf]
    rfl
  have hparse : parsePathDirName (joinSegs ["utils", fileBase]) = ("utils", stripExt fileBase) := by
    unfold parsePathDirName
    rw [hjoin, hsegs2]
    rfl
  rw [hparse]
  show kebabCase (if replaceFirstSlash "utils" = "" then stripExt fileBase
    else replaceFirstSlash "utils") = "utils"
  have hrep : replaceFirstSlash "utils" = "utils" := by decide
  rw [hrep, if_neg (by decide : ¬ ("utils" : String) = "")]
  decide

/-- The semantic category a module is classified into. The string values of
the TypeScript union are modelled by constructors: `registry:shadcn`,
`registry:component`, `registry:hook`, `registry:lib`, `registry:internal`
and `external`. -/
inductive ShadcnItemType where
  | registryShadcn
  | registryComponent
  | registryHook
  | registryLib
  | registryInternal
  | externalDep
deriving DecidableEq, Repr

/-- A catalog name together with a semantic category (source: ShadcnItemMeta). -/
structure ShadcnItemMeta where
  name : String
  mtype : ShadcnItemType
deriving DecidableEq, Repr

/-- One module record of the analysis pass (source: ShadcnItem): its meta,
its combined import list and its captured source text, absent when the
transform hook never saw the module. -/
structure ShadcnItem where
  meta : ShadcnItemMeta
  modules : List String
  code : Option String
deriving DecidableEq, Repr

/-- The per-module information the bundler host exposes: static import ids,
dynamic import ids and the stashed source text. -/
structure ModuleInfo where
  importedIds : List String
  dynamicallyImportedIds : List String
  sourceCode : Option String
deriving DecidableEq, Repr

/-- The resolved id handed to the classifier: the module identity and the
externality flag (only a strict `true` counts in the source, so a boolean
suffices; the rollup value "absolute" behaves as false there). -/
structure ResolvedIdM where
  id : String
  external : Bool
deriving DecidableEq, Repr

/-- The source directory constant of the plugin (source: srcDir). -/
def srcDir : String := "src"

/-- The primitive-UI directory constant (source: uiComponentsDir,
joinPath(srcDir, "components/ui")). -/
def uiComponentsDir : String := "src/components/ui"

/-- The components directory constant (source: componentsDir). -/
def componentsDir : String := "src/components"

/-- The composables directory constant (source: composablesDir). -/
def composablesDir : String := "src/composables"

/-- The four path-prefix matchers built with vite's createFilter, modelled as
opaque boolean predicates over module identities. -/
structure ClassifierFilters where
  isShadcnComponent : String → Bool
  isComponent : String → Bool
  isComposable : String → Bool
  isUtil : String → Bool

/-- The classifier (source: getShadcnItemMeta): fixed priority matching of a
resolved id against the four filters, then externality, then internal. -/
def getShadcnItemMeta (fl : ClassifierFilters) (configRootDir : String)
    (resolvedId : ResolvedIdM) : ShadcnItemMeta :=
  if fl.isShadcnComponent resolvedId.id then
    { mtype := .registryShadcn
      name := getRegistryItemName resolvedId.id configRootDir uiComponentsDir }
  else if fl.isComponent resolvedId.id then
    { mtype := .registryComponent
      name := getRegistryItemName resolvedId.id configRootDir componentsDir }
  else if fl.isComposable resolvedId.id then
    { mtype := .registryHook
      name := getRegistryItemName resolvedId.id configRootDir composablesDir }
  else if fl.isUtil resolvedId.id then
    { mtype := .registryLib
      name := getRegistryItemName resolvedId.id configRootDir srcDir }
  else if resolvedId.external then
    { mtype := .externalDep, name := resolvedId.id }
  else
    { mtype := .registryInternal, name := resolvedId.id }

/-- The per-module import list the graph walker consumes (source:
getHoistedImportedIds): static import ids first, then dynamic import ids. -/
def walkerImportList (mi : ModuleInfo) : List String :=
  mi.importedIds ++ mi.dynamicallyImportedIds

/-- The module record buildEnd stores per module id (source: buildEnd,
shadcnItems.set): the classifier meta, then the dynamically imported ids
followed by the statically imported ids, then the stashed source text. -/
def mkShadcnItem (meta : ShadcnItemMeta) (mi : ModuleInfo) : ShadcnItem :=
  { meta := meta
    modules := mi.dynamicallyImportedIds ++ mi.importedIds
    code := mi.sourceCode }

/-- Failure modes of the walker loop: a frontier id without module info
(the source throws), or insufficient fuel for the while loop. -/
inductive WalkErr where
  | missingInfo
  | outOfFuel
deriving DecidableEq, Repr

/-- Look up every id of a frontier, failing on the first missing one, as the
throwing `map` over `getModuleInfo` in getHoistedImportedIds. -/
def lookupAll (g : List (String × ModuleInfo)) : List String → Option (List ModuleInfo)
  | [] => some []
  | id :: rest =>
    match mapGet g id with
    | none => none
    | some mi => (lookupAll g rest).map (fun l => mi :: l)

/-- One run of the while loop of getHoistedImportedIds, fuelled: fetch the
info of every frontier id, flatten their import lists, keep the ids not yet
hoisted as the next frontier, hoist all of them, repeat. -/
def walkAux (g : List (String × ModuleInfo)) : Nat → List String → List String →
    Except WalkErr (List String)
  | fuel, visited, frontier =>
    if frontier.isEmpty then .ok visited
    else
      match fuel with
      | 0 => .error .outOfFuel
      | fuel + 1 =>
        match lookupAll g frontier with
        | none => .error .missingInfo
        | some infos =>
          walkAux g fuel
            ((infos.flatMap walkerImportList).foldl setAdd visited)
            ((infos.flatMap walkerImportList).filter (fun id => ¬ visited.contains id))

/-- The graph walker (source: getHoistedImportedIds): breadth-first expansion
from a root id with a hoisted set, fuelled by the number of graph records. -/
def getHoistedImportedIds (g : List (String × ModuleInfo)) (root : String) :
    Except WalkErr (List String) :=
  walkAux g (g.length + 1) [] [root]

/-- The import list of an id in the record map, empty when absent. -/
def importsOf (g : List (String × ModuleInfo)) (id : String) : List String :=
  match mapGet g id with
  | some mi => walkerImportList mi
  | none => []

/-- Transitive reachability from a root along at least one import edge. -/
inductive Reach (g : List (String × ModuleInfo)) (root : String) : String → Prop
  | base {x : String} : x ∈ importsOf g root → Reach g root x
  | step {y x : String} : Reach g root y → x ∈ importsOf g y → Reach g root x

/-- Every import edge of the record map stays inside the record map. -/
def ClosedGraph (g : List (String × ModuleInfo)) : Prop :=
  ∀ p ∈ g, ∀ d ∈ walkerImportList p.2, d ∈ g.map Prod.fst

instance (g : List (String × ModuleInfo)) : Decidable (ClosedGraph g) := by
  unfold ClosedGraph
  infer_instance

theorem lookupAll_some_of_keys {g : List (String × ModuleInfo)} {ids : List String}
    (h : ∀ id ∈ ids, id ∈ g.map Prod.fst) : ∃ infos, lookupAll g ids = some infos := by
  induction ids with
  | nil => exact ⟨[], rfl⟩
  | cons id rest ih =>
    have hid : id ∈ g.map Prod.fst := h id (List.mem_cons_self id rest)
    rcases List.mem_map.mp hid with ⟨p, hp, he⟩
    have hsome : (mapGet g id).isSome := he ▸ mapGet_isSome_of_mem hp
    rcases Option.isSome_iff_exists.mp hsome with ⟨mi, hmi⟩
    rcases ih (fun x hx => h x (List.mem_cons_of_mem id hx)) with ⟨infos, hinfos⟩
    refine ⟨mi :: infos, ?_⟩
    unfold lookupAll
    rw [hmi, hinfos]
    rfl

theorem lookupAll_mem_flat {g : List (String × ModuleInfo)} {ids : List String}
    {infos : List ModuleInfo} (h : lookupAll g ids = some infos) {x : String}
    (hx : x ∈ infos.flatMap walkerImportList) : ∃ id ∈ ids, x ∈ importsOf g id := by
  induction ids generalizing infos with
  | nil =>
    unfold lookupAll at h
    cases h
    cases hx
  | cons id rest ih =>
    unfold lookupAll at h
    cases hmi : mapGet g id with
    | none => rw [hmi] at h; cases h
    | some mi =>
      rw [hmi] at h
      rcases Option.map_eq_some'.mp h with ⟨l, hl, he⟩
      subst he
      rw [List.flatMap_cons] at hx
      rcases List.mem_append.mp hx with hmem | hmem
      · refine ⟨id, List.mem_cons_self id rest, ?_⟩
        unfold importsOf
        rw [hmi]
        exact hmem
      · rcases ih hl hmem with ⟨id', hid', hx'⟩
        exact ⟨id', List.mem_cons_of_mem id hid', hx'⟩

theorem lookupAll_imports_sub {g : List (String × ModuleInfo)} {ids : List String}
    {infos : List ModuleInfo} (h : lookupAll g ids = some infos) {id : String}
    (hid : id ∈ ids) : importsOf g id ⊆ infos.flatMap walkerImportList := by
  induction ids generalizing infos with
  | nil => cases hid
  | cons a rest ih =>
    unfold lookupAll at h
    cases hmi : mapGet g a with
    | none => rw [hmi] at h; cases h
    | some mi =>
      rw [hmi] at h
      rcases Option.map_eq_some'.mp h with ⟨l, hl, he⟩
      subst he
      rw [List.flatMap_cons]
      rcases List.mem_cons.mp hid with hcase | hcase
      · subst hcase
        intro x hx
        apply List.mem_append.mpr
        left
        unfold importsOf at hx
        rw [hmi] at hx
        exact hx
      · intro x hx
        apply List.mem_append.mpr
        right
        exact ih hl hcase hx

theorem lookupAll_flat_keys {g : List (String × ModuleInfo)} {ids : List String}
    {infos : List ModuleInfo} (h : lookupAll g ids = some infos)
    (hclosed : ClosedGraph g) {x : String}
    (hx : x ∈ infos.flatMap walkerImportList) : x ∈ g.map Prod.fst := by
  rcases lookupAll_mem_flat h hx with ⟨id, _, hx'⟩
  unfold importsOf at hx'
  cases hmi : mapGet g id with
  | none => rw [hmi] at hx'; cases hx'
  | some mi =>
    rw [hmi] at hx'
    exact hclosed (id, mi) (mem_of_mapGet_eq_some hmi) x hx'

theorem walkAux_empty (g : List (String × ModuleInfo)) (fuel : Nat) (visited : List String) :
    walkAux g fuel visited [] = .ok visited := by
  unfold walkAux
  rfl

theorem walkAux_zero (g : List (String × ModuleInfo)) (visited frontier : List String)
    (hne : frontier.isEmpty = false) :
    walkAux g 0 visited frontier = .error .outOfFuel := by
  conv_lhs => unfold walkAux
  rw [if_neg (by simp [hne])]

theorem walkAux_succ_none (g : List (String × ModuleInfo)) (fuel : Nat)
    (visited frontier : List String) (hne : frontier.isEmpty = false)
    (hl : lookupAll g frontier = none) :
    walkAux g (fuel + 1) visited frontier = .error .missingInfo := by
  conv_lhs => unfold walkAux
  rw [if_neg (by simp [hne]), hl]

theorem walkAux_succ_some (g : List (String × ModuleInfo)) (fuel : Nat)
    (visited frontier : List String) {infos : List ModuleInfo}
    (hne : frontier.isEmpty = false) (hl : lookupAll g frontier = some infos) :
    walkAux g (fuel + 1) visited frontier =
      walkAux g fuel
        ((infos.flatMap walkerImportList).foldl setAdd visited)
        ((infos.flatMap walkerImportList).filter (fun id => ¬ visited.contains id)) := by
  conv_lhs => unfold walkAux
  rw [if_neg (by simp [hne]), hl]

theorem length_le_of_nodup_sub {a b : List String} (ha : a.Nodup) (hb : b.Nodup)
    (hsub : ∀ x ∈ a, x ∈ b) : a.length ≤ b.length := by
  have h1 : a.toFinset.card = a.length := List.toFinset_card_of_nodup ha
  have h2 : b.toFinset.card = b.length := List.toFinset_card_of_nodup hb
  rw [← h1, ← h2]
  apply Finset.card_le_card
  intro y hy
  exact List.mem_toFinset.mpr (hsub y (List.mem_toFinset.mp hy))

theorem length_lt_of_nodup_ssub {a b : List String} (ha : a.Nodup) (hb : b.Nodup)
    (hsub : ∀ x ∈ a, x ∈ b) (x : String) (hxb : x ∈ b) (hxa : x ∉ a) :
    a.length < b.length := by
  have h1 : a.toFinset.card = a.length := List.toFinset_card_of_nodup ha
  have h2 : b.toFinset.card = b.length := List.toFinset_card_of_nodup hb
  rw [← h1, ← h2]
  apply Finset.card_lt_card
  constructor
  · intro y hy
    exact List.mem_toFinset.mpr (hsub y (List.mem_toFinset.mp hy))
  · intro hcon
    exact hxa (List.mem_toFinset.mp (hcon (List.mem_toFinset.mpr hxb)))

theorem walkAux_ok (g : List (String × ModuleInfo)) (hclosed : ClosedGraph g)
    (hkeys : (g.map Prod.fst).Nodup) :
    ∀ fuel visited frontier, visited.Nodup → (∀ x ∈ visited, x ∈ g.map Prod.fst) →
    (∀ x ∈ frontier, x ∈ g.map Prod.fst) → g.length + 1 ≤ fuel + visited.length →
    ∃ v, walkAux g fuel visited frontier = .ok v := by
  intro fuel
  induction fuel with
  | zero =>
    intro visited frontier hnd hvk hfk hfuel
    cases hfe : frontier with
    | nil => exact ⟨visited, walkAux_empty g 0 visited⟩
    | cons a rest =>
      exfalso
      have hle : visited.length ≤ (g.map Prod.fst).length :=
        length_le_of_nodup_sub hnd hkeys hvk
      rw [List.length_map] at hle
      omega
  | succ fuel ih =>
    intro visited frontier hnd hvk hfk hfuel
    cases hfe : frontier with
    | nil => exact ⟨visited, walkAux_empty g _ visited⟩
    | cons a rest =>
      subst hfe
      rcases lookupAll_some_of_keys hfk with ⟨infos, hinfos⟩
      rw [walkAux_succ_some g fuel visited (a :: rest) rfl hinfos]
      have hflatk : ∀ x ∈ infos.flatMap walkerImportList, x ∈ g.map Prod.fst :=
        fun x hx => lookupAll_flat_keys hinfos hclosed hx
      have hnd' : ((infos.flatMap walkerImportList).foldl setAdd visited).Nodup :=
        foldl_setAdd_nodup hnd
      have hvk' : ∀ x ∈ (infos.flatMap walkerImportList).foldl setAdd visited,
          x ∈ g.map Prod.fst := by
        intro x hx
        rcases foldl_setAdd_mem.mp hx with h | h
        · exact hvk x h
        · exact hflatk x h
      cases hnext : (infos.flatMap walkerImportList).filter (fun id => ¬ visited.contains id) with
      | nil =>
        exact ⟨(infos.flatMap walkerImportList).foldl setAdd visited,
          walkAux_empty g fuel _⟩
      | cons b rest' =>
        apply ih _ _ hnd' hvk'
        · intro x hx
          rw [← hnext] at hx
          exact hflatk x (List.mem_of_mem_filter hx)
        · have hb : b ∈ (infos.flatMap walkerImportList).filter
              (fun id => ¬ visited.contains id) := by
            rw [hnext]
            exact List.mem_cons_self b rest'
          have hbflat : b ∈ infos.flatMap walkerImportList := List.mem_of_mem_filter hb
          have hbnv : b ∉ visited := by
            have := List.of_mem_filter hb
            intro hcon
            simp [List.contains_eq_any_beq] at this
            exact this (by simpa using hcon)
          have hbv' : b ∈ (infos.flatMap walkerImportList).foldl setAdd visited :=
            foldl_setAdd_mem.mpr (Or.inr hbflat)
          have hsub : ∀ x ∈ visited, x ∈ (infos.flatMap walkerImportList).foldl setAdd visited :=
            fun x hx => foldl_setAdd_mem.mpr (Or.inl hx)
          have hlt : visited.length <
              ((infos.flatMap walkerImportList).foldl setAdd visited).length :=
            length_lt_of_nodup_ssub hnd hnd' hsub b hbv' hbnv
          omega

theorem walkAux_sound (g : List (String × ModuleInfo)) (root : String) :
    ∀ fuel visited frontier v, walkAux g fuel visited frontier = .ok v →
    (∀ x ∈ visited, Reach g root x) →
    (∀ f ∈ frontier, f = root ∨ Reach g root f) →
    ∀ x ∈ v, Reach g root x := by
  intro fuel
  induction fuel with
  | zero =>
    intro visited frontier v hok hv hf
    cases hfe : frontier with
    | nil =>
      subst hfe
      rw [walkAux_empty] at hok
      cases hok
      exact hv
    | cons a rest =>
      subst hfe
      rw [walkAux_zero g visited (a :: rest) rfl] at hok
      cases hok
  | succ fuel ih =>
    intro visited frontier v hok hv hf
    cases hfe : frontier with
    | nil =>
      subst hfe
      rw [walkAux_empty] at hok
      cases hok
      exact hv
    | cons a rest =>
      subst hfe
      cases hinfos : lookupAll g (a :: rest) with
      | none =>
        rw [walkAux_succ_none g fuel visited (a :: rest) rfl hinfos] at hok
        cases hok
      | some infos =>
        rw [walkAux_succ_some g fuel visited (a :: rest) rfl hinfos] at hok
        have hflat : ∀ x ∈ infos.flatMap walkerImportList, Reach g root x := by
          intro x hx
          rcases lookupAll_mem_flat hinfos hx with ⟨id, hid, hx'⟩
          rcases hf id hid with h | h
          · exact h ▸ Reach.base hx'
          · exact Reach.step h hx'
        apply ih _ _ _ hok
        · intro x hx
          rcases foldl_setAdd_mem.mp hx with h | h
          · exact hv x h
          · exact hflat x h
        · intro f hfmem
          exact Or.inr (hflat f (List.mem_of_mem_filter hfmem))

theorem walkAux_final (g : List (String × ModuleInfo)) :
    ∀ fuel visited frontier v, walkAux g fuel visited frontier = .ok v →
    (∀ y ∈ visited, y ∉ frontier → importsOf g y ⊆ visited) →
    (∀ x ∈ visited, x ∈ v) ∧ (∀ f ∈ frontier, importsOf g f ⊆ v) ∧
      (∀ y ∈ v, importsOf g y ⊆ v) := by
  intro fuel
  induction fuel with
  | zero =>
    intro visited frontier v hok hK
    cases hfe : frontier with
    | nil =>
      subst hfe
      rw [walkAux_empty] at hok
      cases hok
      exact ⟨fun x hx => hx, fun f hf => absurd hf (List.not_mem_nil f),
        fun y hy => hK y hy (List.not_mem_nil y)⟩
    | cons a rest =>
      subst hfe
      rw [walkAux_zero g visited (a :: rest) rfl] at hok
      cases hok
  | succ fuel ih =>
    intro visited frontier v hok hK
    cases hfe : frontier with
    | nil =>
      subst hfe
      rw [walkAux_empty] at hok
      cases hok
      exact ⟨fun x hx => hx, fun f hf => absurd hf (List.not_mem_nil f),
        fun y hy => hK y hy (List.not_mem_nil y)⟩
    | cons a rest =>
      subst hfe
      cases hinfos : lookupAll g (a :: rest) with
      | none =>
        rw [walkAux_succ_none g fuel visited (a :: rest) rfl hinfos] at hok
        cases hok
      | some infos =>
        rw [walkAux_succ_some g fuel visited (a :: rest) rfl hinfos] at hok
        have hfront_sub : ∀ f ∈ a :: rest,
            importsOf g f ⊆ (infos.flatMap walkerImportList).foldl setAdd visited := by
          intro f hfmem x hx
          exact foldl_setAdd_mem.mpr (Or.inr (lookupAll_imports_sub hinfos hfmem hx))
        have hK' : ∀ y ∈ (infos.flatMap walkerImportList).foldl setAdd visited,
            y ∉ (infos.flatMap walkerImportList).filter (fun id => ¬ visited.contains id) →
            importsOf g y ⊆ (infos.flatMap walkerImportList).foldl setAdd visited := by
          intro y hy hynext
          rcases foldl_setAdd_mem.mp hy with hyv | hyflat
          · by_cases hyf : y ∈ a :: rest
            · exact hfront_sub y hyf
            · intro x hx
              exact foldl_setAdd_mem.mpr (Or.inl (hK y hyv hyf hx))
          · by_cases hyv : y ∈ visited
            · by_cases hyf : y ∈ a :: rest
              · exact hfront_sub y hyf
              · intro x hx
                exact foldl_setAdd_mem.mpr (Or.inl (hK y hyv hyf hx))
            · exfalso
              apply hynext
              apply List.mem_filter.mpr
              refine ⟨hyflat, ?_⟩
              simp [List.contains_eq_any_beq]
              intro hcon
              exact hyv (by simpa using hcon)
        rcases ih _ _ _ hok hK' with ⟨h1, h2, h3⟩
        refine ⟨?_, ?_, h3⟩
        · intro x hx
          exact h1 x (foldl_setAdd_mem.mpr (Or.inl hx))
        · intro f hfmem x hx
          exact h1 x (hfront_sub f hfmem hx)

theorem walkAux_nodup (g : List (String × ModuleInfo)) :
    ∀ fuel visited frontier v, walkAux g fuel visited frontier = .ok v →
    visited.Nodup → v.Nodup := by
  intro fuel
  induction fuel with
  | zero =>
    intro visited frontier v hok hnd
    cases hfe : frontier with
    | nil =>
      subst hfe
      rw [walkAux_empty] at hok
      cases hok
      exact hnd
    | cons a rest =>
      subst hfe
      rw [walkAux_zero g visited (a :: rest) rfl] at hok
      cases hok
  | succ fuel ih =>
    intro visited frontier v hok hnd
    cases hfe : frontier with
    | nil =>
      subst hfe
      rw [walkAux_empty] at hok
      cases hok
      exact hnd
    | cons a rest =>
      subst hfe
      cases hinfos : lookupAll g (a :: rest) with
      | none =>
        rw [walkAux_succ_none g fuel visited (a :: rest) rfl hinfos] at hok
        cases hok
      | some infos =>
        rw [walkAux_succ_some g fuel visited (a :: rest) rfl hinfos] at hok
        exact ih _ _ _ hok (foldl_setAdd_nodup hnd)

/-- The synthetic-internal marker prefix used by the build tool for private
virtual modules (source: the "\0" checks). -/
def syntheticInternalMark : Char := '\x00'

/-- Models `id.startsWith("\0")` over the character list. -/
def startsWithNull (id : String) : Bool :=
  match id.data with
  | c :: _ => c = syntheticInternalMark
  | [] => false

/-- Models `id.includes("?")` for the one-character query delimiter. -/
def containsQuery (id : String) : Bool :=
  id.data.contains '?'

/-- One file entry of a registry item (source: RegistryItemFile): the literal
type tag, the project-root-relative path, the identical target and the
captured content, absent when no source text was stashed. -/
structure RegistryItemFile where
  ftype : String
  path : String
  target : String
  content : Option String
deriving DecidableEq, Repr

/-- Failure modes of the closure builder: a missing record for an internal
module's import (the source throws), or insufficient fuel for the while
loop. -/
inductive ClosureErr where
  | missingRecord
  | outOfFuel
deriving DecidableEq, Repr

/-- The mutable state of createShadcnItemDependencies: the three result
collections plus the next frontier being accumulated during one pass. -/
structure ClosureState where
  dependencies : List String
  registryDependencies : List String
  files : List (String × RegistryItemFile)
  nextItems : List (String × ShadcnItem)
deriving DecidableEq, Repr

/-- The default branch of the switch (source: `files.set(id, ...)` guarded by
`if (id.includes("?")) break`): record a file entry keyed by the module id
unless the id carries a query fragment. -/
def addFileUnlessQuery (originalItems : List (String × ShadcnItem)) (configRootDir : String)
    (st : ClosureState) (id : String) : ClosureState :=
  if containsQuery id then st
  else
    { st with
      files := mapSet st.files id
        { ftype := "registry:file"
          path := getLocalFilePath id configRootDir
          target := getLocalFilePath id configRootDir
          content := (mapGet originalItems id).bind (fun it => it.code) } }

/-- The internal-module branch of createShadcnItemDependencies (source:
`modules.forEach(...)`): look up every declared import in the record map,
throwing on the first missing one, and store each into the next frontier. -/
def enqueueImports (originalItems : List (String × ShadcnItem)) (mods : List String)
    (st : ClosureState) : Except ClosureErr ClosureState :=
  mods.foldlM (fun s dep =>
    match mapGet originalItems dep with
    | none => Except.error ClosureErr.missingRecord
    | some depItem => Except.ok { s with nextItems := mapSet s.nextItems dep depItem }) st

/-- Process one frontier entry of createShadcnItemDependencies: skip
synthetic-internal ids, collect externals as dependencies, shadcn primitives
as registry dependencies, enqueue an internal module's imports (throwing on a
missing record) and fall through to the file branch, and otherwise just add
the file. -/
def processModule (originalItems : List (String × ShadcnItem)) (configRootDir : String)
    (st : ClosureState) (entry : String × ShadcnItem) : Except ClosureErr ClosureState :=
  if startsWithNull entry.1 then .ok st
  else
    match entry.2.meta.mtype with
    | .externalDep => .ok { st with dependencies := setAdd st.dependencies entry.1 }
    | .registryShadcn =>
      .ok { st with registryDependencies := setAdd st.registryDependencies entry.2.meta.name }
    | .registryInternal => do
      let st' ← enqueueImports originalItems entry.2.modules st
      .ok (addFileUnlessQuery originalItems configRootDir st' entry.1)
    | _ => .ok (addFileUnlessQuery originalItems configRootDir st entry.1)

/-- The while loop of createShadcnItemDependencies, fuelled: process every
frontier entry in order into the shared state with a fresh next-frontier map,
then recurse on the collected next frontier. -/
def closureLoop (originalItems : List (String × ShadcnItem)) (configRootDir : String) :
    Nat → List (String × ShadcnItem) → ClosureState → Except ClosureErr ClosureState
  | fuel, frontier, st =>
    if frontier.isEmpty then .ok st
    else
      match fuel with
      | 0 => .error .outOfFuel
      | fuel + 1 =>
        match frontier.foldlM (processModule originalItems configRootDir)
            { st with nextItems := [] } with
        | .error e => .error e
        | .ok st' => closureLoop originalItems configRootDir fuel st'.nextItems st'

/-- The seed frontier of createShadcnItemDependencies: the target id and its
direct imports, filtered down to the entries present in the record map. -/
def closureSeed (id : String) (originalItems : List (String × ShadcnItem)) :
    List (String × ShadcnItem) :=
  originalItems.filter
    (fun p => (id :: ((mapGet originalItems id).map (fun it => it.modules)).getD []).contains p.1)

/-- The closure builder on the keyed state (source:
createShadcnItemDependencies before the final spreads): run the loop from the
seed frontier with empty collections. -/
def createShadcnItemDependenciesAcc (fuel : Nat) (id : String)
    (originalItems : List (String × ShadcnItem)) (configRootDir : String) :
    Except ClosureErr ClosureState :=
  closureLoop originalItems configRootDir fuel (closureSeed id originalItems)
    { dependencies := [], registryDependencies := [], files := [], nextItems := [] }

theorem addFileUnlessQuery_dependencies (items : List (String × ShadcnItem))
    (cfg : String) (st : ClosureState) (id : String) :
    (addFileUnlessQuery items cfg st id).dependencies = st.dependencies := by
  unfold addFileUnlessQuery
  split <;> rfl

theorem addFileUnlessQuery_registryDependencies (items : List (String × ShadcnItem))
    (cfg : String) (st : ClosureState) (id : String) :
    (addFileUnlessQuery items cfg st id).registryDependencies = st.registryDependencies := by
  unfold addFileUnlessQuery
  split <;> rfl

theorem addFileUnlessQuery_nextItems (items : List (String × ShadcnItem))
    (cfg : String) (st : ClosureState) (id : String) :
    (addFileUnlessQuery items cfg st id).nextItems = st.nextItems := by
  unfold addFileUnlessQuery
  split <;> rfl

theorem addFileUnlessQuery_files_of_query (items : List (String × ShadcnItem))
    (cfg : String) (st : ClosureState) (id : String) (h : containsQuery id = true) :
    (addFileUnlessQuery items cfg st id).files = st.files := by
  unfold addFileUnlessQuery
  rw [if_pos h]

theorem addFileUnlessQuery_files_of_not_query (items : List (String × ShadcnItem))
    (cfg : String) (st : ClosureState) (id : String) (h : containsQuery id = false) :
    (addFileUnlessQuery items cfg st id).files = mapSet st.files id
      { ftype := "registry:file"
        path := getLocalFilePath id cfg
        target := getLocalFilePath id cfg
        content := (mapGet items id).bind (fun it => it.code) } := by
  unfold addFileUnlessQuery
  rw [if_neg (by simp [h])]

theorem enqueueImports_nil (items : List (String × ShadcnItem)) (st : ClosureState) :
    enqueueImports items [] st = .ok st := rfl

theorem enqueueImports_cons_none (items : List (String × ShadcnItem)) (d : String)
    (mods : List String) (st : ClosureState) (h : mapGet items d = none) :
    enqueueImports items (d :: mods) st = .error .missingRecord := by
  unfold enqueueImports
  rw [List.foldlM_cons, h]
  rfl

theorem enqueueImports_cons_some (items : List (String × ShadcnItem)) (d : String)
    (mods : List String) (st : ClosureState) {depItem : ShadcnItem}
    (h : mapGet items d = some depItem) :
    enqueueImports items (d :: mods) st =
      enqueueImports items mods { st with nextItems := mapSet st.nextItems d depItem } := by
  unfold enqueueImports
  rw [List.foldlM_cons, h]
  rfl

theorem enqueueImports_error_of_missing {items : List (String × ShadcnItem)}
    {mods : List String} {st : ClosureState}
    (h : ∃ d ∈ mods, mapGet items d = none) :
    enqueueImports items mods st = .error .missingRecord := by
  induction mods generalizing st with
  | nil =>
    rcases h with ⟨d, hd, _⟩
    cases hd
  | cons a rest ih =>
    cases ha : mapGet items a with
    | none => exact enqueueImports_cons_none items a rest st ha
    | some depItem =>
      rw [enqueueImports_cons_some items a rest st ha]
      rcases h with ⟨d, hd, hnone⟩
      rcases List.mem_cons.mp hd with hcase | hcase
      · subst hcase
        rw [ha] at hnone
        cases hnone
      · exact ih ⟨d, hcase, hnone⟩

theorem enqueueImports_ok_of_present {items : List (String × ShadcnItem)}
    {mods : List String} (st : ClosureState)
    (h : ∀ d ∈ mods, (mapGet items d).isSome) :
    ∃ st', enqueueImports items mods st = .ok st' ∧
      st'.dependencies = st.dependencies ∧
      st'.registryDependencies = st.registryDependencies ∧
      st'.files = st.files ∧
      (∀ p ∈ st'.nextItems, p ∈ st.nextItems ∨ mapGet items p.1 = some p.2) ∧
      (∀ x, x ∉ mods → mapGet st'.nextItems x = mapGet st.nextItems x) ∧
      (∀ d ∈ mods, mapGet st'.nextItems d = mapGet items d) := by
  induction mods generalizing st with
  | nil =>
    refine ⟨st, rfl, rfl, rfl, rfl, fun p hp => Or.inl hp, fun x _ => rfl, fun d hd => absurd hd
      (List.not_mem_nil d)⟩
  | cons a rest ih =>
    have ha : (mapGet items a).isSome := h a (List.mem_cons_self a rest)
    rcases Option.isSome_iff_exists.mp ha with ⟨depItem, hdep⟩
    rw [enqueueImports_cons_some items a rest st hdep]
    rcases ih { st with nextItems := mapSet st.nextItems a depItem }
        (fun d hd => h d (List.mem_cons_of_mem a hd)) with
      ⟨st', hok, hdeps, hreg, hfiles, hnext, hout, hin⟩
    refine ⟨st', hok, hdeps, hreg, hfiles, ?_, ?_, ?_⟩
    · intro p hp
      rcases hnext p hp with hcase | hcase
      · rcases mem_mapSet hcase with he | he
        · right
          rw [he]
          exact hdep
        · exact Or.inl he
      · exact Or.inr hcase
    · intro x hx
      have hxa : x ≠ a := fun he => hx (he ▸ List.mem_cons_self a rest)
      have hxr : x ∉ rest := fun hr => hx (List.mem_cons_of_mem a hr)
      rw [hout x hxr]
      exact mapGet_mapSet_ne st.nextItems a x depItem hxa
    · intro d hd
      rcases List.mem_cons.mp hd with hcase | hcase
      · subst hcase
        by_cases hdr : d ∈ rest
        · exact hin d hdr
        · rw [hout d hdr, mapGet_mapSet_self, hdep]
      · exact hin d hcase

theorem enqueueImports_ok_state {items : List (String × ShadcnItem)}
    {mods : List String} {st st' : ClosureState}
    (hok : enqueueImports items mods st = .ok st') :
    st'.dependencies = st.dependencies ∧
    st'.registryDependencies = st.registryDependencies ∧
    st'.files = st.files ∧
    (∀ p ∈ st'.nextItems, p ∈ st.nextItems ∨ mapGet items p.1 = some p.2) := by
  induction mods generalizing st with
  | nil =>
    rw [enqueueImports_nil] at hok
    cases hok
    exact ⟨rfl, rfl, rfl, fun p hp => Or.inl hp⟩
  | cons a rest ih =>
    cases ha : mapGet items a with
    | none =>
      rw [enqueueImports_cons_none items a rest st ha] at hok
      cases hok
    | some depItem =>
      rw [enqueueImports_cons_some items a rest st ha] at hok
      rcases ih hok with ⟨hdeps, hreg, hfiles, hnext⟩
      refine ⟨hdeps, hreg, hfiles, ?_⟩
      intro p hp
      rcases hnext p hp with hcase | hcase
      · rcases mem_mapSet hcase with he | he
        · right
          rw [he]
          exact ha
        · exact Or.inl he
      · exact Or.inr hcase

theorem processModule_skip (items : List (String × ShadcnItem)) (cfg : String)
    (st : ClosureState) (k : String) (v : ShadcnItem) (h : startsWithNull k = true) :
    processModule items cfg st (k, v) = .ok st := by
  simp [processModule, h]

theorem processModule_external (items : List (String × ShadcnItem)) (cfg : String)
    (st : ClosureState) (k : String) (v : ShadcnItem) (hnull : startsWithNull k = false)
    (hv : v.meta.mtype = .externalDep) :
    processModule items cfg st (k, v) = .ok { st with dependencies := setAdd st.dependencies k } := by
  simp [processModule, hnull, hv]

theorem processModule_shadcn (items : List (String × ShadcnItem)) (cfg : String)
    (st : ClosureState) (k : String) (v : ShadcnItem) (hnull : startsWithNull k = false)
    (hv : v.meta.mtype = .registryShadcn) :
    processModule items cfg st (k, v) =
      .ok { st with registryDependencies := setAdd st.registryDependencies v.meta.name } := by
  simp [processModule, hnull, hv]

theorem processModule_internal_err (items : List (String × ShadcnItem)) (cfg : String)
    (st : ClosureState) (k : String) (v : ShadcnItem) {e : ClosureErr}
    (hnull : startsWithNull k = false) (hv : v.meta.mtype = .registryInternal)
    (henq : enqueueImports items v.modules st = .error e) :
    processModule items cfg st (k, v) = .error e := by
  simp only [processModule, hnull, hv, henq]
  rfl

theorem processModule_internal_ok (items : List (String × ShadcnItem)) (cfg : String)
    (st : ClosureState) (k : String) (v : ShadcnItem) {st1 : ClosureState}
    (hnull : startsWithNull k = false) (hv : v.meta.mtype = .registryInternal)
    (henq : enqueueImports items v.modules st = .ok st1) :
    processModule items cfg st (k, v) = .ok (addFileUnlessQuery items cfg st1 k) := by
  simp only [processModule, hnull, hv, henq]
  rfl

theorem processModule_plain (items : List (String × ShadcnItem)) (cfg : String)
    (st : ClosureState) (k : String) (v : ShadcnItem) (hnull : startsWithNull k = false)
    (hv : v.meta.mtype = .registryComponent ∨ v.meta.mtype = .registryHook ∨
      v.meta.mtype = .registryLib) :
    processModule items cfg st (k, v) = .ok (addFileUnlessQuery items cfg st k) := by
  rcases hv with hv | hv | hv <;> simp [processModule, hnull, hv]

theorem processModule_no_missing (items : List (String × ShadcnItem)) (cfg : String)
    (st : ClosureState) (e : String × ShadcnItem)
    (hint : e.2.meta.mtype = .registryInternal → ∀ d ∈ e.2.modules, (mapGet items d).isSome) :
    ∃ st', processModule items cfg st e = .ok st' := by
  obtain ⟨k, v⟩ := e
  by_cases hnull : startsWithNull k = true
  · exact ⟨st, processModule_skip items cfg st k v hnull⟩
  · have hnull' : startsWithNull k = false := by
      cases h : startsWithNull k
      · rfl
      · exact absurd h hnull
    cases hv : v.meta.mtype with
    | externalDep => exact ⟨_, processModule_external items cfg st k v hnull' hv⟩
    | registryShadcn => exact ⟨_, processModule_shadcn items cfg st k v hnull' hv⟩
    | registryInternal =>
      rcases enqueueImports_ok_of_present st (hint hv) with ⟨st1, henq, _⟩
      exact ⟨_, processModule_internal_ok items cfg st k v hnull' hv henq⟩
    | registryComponent =>
      exact ⟨_, processModule_plain items cfg st k v hnull' (Or.inl hv)⟩
    | registryHook =>
      exact ⟨_, processModule_plain items cfg st k v hnull' (Or.inr (Or.inl hv))⟩
    | registryLib =>
      exact ⟨_, processModule_plain items cfg st k v hnull' (Or.inr (Or.inr hv))⟩

theorem processModule_next_sub {items : List (String × ShadcnItem)} {cfg : String}
    {st st' : ClosureState} {e : String × ShadcnItem}
    (hok : processModule items cfg st e = .ok st') :
    ∀ p ∈ st'.nextItems, p ∈ st.nextItems ∨ mapGet items p.1 = some p.2 := by
  obtain ⟨k, v⟩ := e
  by_cases hnull : startsWithNull k = true
  · rw [processModule_skip items cfg st k v hnull] at hok
    cases hok
    exact fun p hp => Or.inl hp
  · have hnull' : startsWithNull k = false := by
      cases h : startsWithNull k
      · rfl
      · exact absurd h hnull
    cases hv : v.meta.mtype with
    | externalDep =>
      rw [processModule_external items cfg st k v hnull' hv] at hok
      cases hok
      exact fun p hp => Or.inl hp
    | registryShadcn =>
      rw [processModule_shadcn items cfg st k v hnull' hv] at hok
      cases hok
      exact fun p hp => Or.inl hp
    | registryInternal =>
      cases henq : enqueueImports items v.modules st with
      | error err =>
        rw [processModule_internal_err items cfg st k v hnull' hv henq] at hok
        cases hok
      | ok st1 =>
        rw [processModule_internal_ok items cfg st k v hnull' hv henq] at hok
        cases hok
        rw [addFileUnlessQuery_nextItems]
        exact (enqueueImports_ok_state henq).2.2.2
    | registryComponent =>
      rw [processModule_plain items cfg st k v hnull' (Or.inl hv)] at hok
      cases hok
      rw [addFileUnlessQuery_nextItems]
      exact fun p hp => Or.inl hp
    | registryHook =>
      rw [processModule_plain items cfg st k v hnull' (Or.inr (Or.inl hv))] at hok
      cases hok
      rw [addFileUnlessQuery_nextItems]
      exact fun p hp => Or.inl hp
    | registryLib =>
      rw [processModule_plain items cfg st k v hnull' (Or.inr (Or.inr hv))] at hok
      cases hok
      rw [addFileUnlessQuery_nextItems]
      exact fun p hp => Or.inl hp

theorem addFileUnlessQuery_files_sub {items : List (String × ShadcnItem)} {cfg : String}
    {st : ClosureState} {id : String} :
    ∀ p ∈ (addFileUnlessQuery items cfg st id).files,
      p ∈ st.files ∨ (p.1 = id ∧ containsQuery id = false) := by
  intro p hp
  by_cases hq : containsQuery id = true
  · rw [addFileUnlessQuery_files_of_query items cfg st id hq] at hp
    exact Or.inl hp
  · have hq' : containsQuery id = false := by
      cases h : containsQuery id
      · rfl
      · exact absurd h hq
    rw [addFileUnlessQuery_files_of_not_query items cfg st id hq'] at hp
    rcases mem_mapSet hp with he | he
    · right
      rw [he]
      exact ⟨rfl, hq'⟩
    · exact Or.inl he

theorem processModule_files_sub {items : List (String × ShadcnItem)} {cfg : String}
    {st st' : ClosureState} {e : String × ShadcnItem}
    (hok : processModule items cfg st e = .ok st') :
    ∀ p ∈ st'.files, p ∈ st.files ∨
      (p.1 = e.1 ∧ startsWithNull e.1 = false ∧ containsQuery e.1 = false) := by
  obtain ⟨k, v⟩ := e
  by_cases hnull : startsWithNull k = true
  · rw [processModule_skip items cfg st k v hnull] at hok
    cases hok
    exact fun p hp => Or.inl hp
  · have hnull' : startsWithNull k = false := by
      cases h : startsWithNull k
      · rfl
      · exact absurd h hnull
    cases hv : v.meta.mtype with
    | externalDep =>
      rw [processModule_external items cfg st k v hnull' hv] at hok
      cases hok
      exact fun p hp => Or.inl hp
    | registryShadcn =>
      rw [processModule_shadcn items cfg st k v hnull' hv] at hok
      cases hok
      exact fun p hp => Or.inl hp
    | registryInternal =>
      cases henq : enqueueImports items v.modules st with
      | error err =>
        rw [processModule_internal_err items cfg st k v hnull' hv henq] at hok
        cases hok
      | ok st1 =>
        rw [processModule_internal_ok items cfg st k v hnull' hv henq] at hok
        cases hok
        intro p hp
        rcases addFileUnlessQuery_files_sub p hp with h | h
        · rw [(enqueueImports_ok_state henq).2.2.1] at h
          exact Or.inl h
        · exact Or.inr ⟨h.1, hnull', h.2⟩
    | registryComponent =>
      rw [processModule_plain items cfg st k v hnull' (Or.inl hv)] at hok
      cases hok
      intro p hp
      rcases addFileUnlessQuery_files_sub p hp with h | h
      · exact Or.inl h
      · exact Or.inr ⟨h.1, hnull', h.2⟩
    | registryHook =>
      rw [processModule_plain items cfg st k v hnull' (Or.inr (Or.inl hv))] at hok
      cases hok
      intro p hp
      rcases addFileUnlessQuery_files_sub p hp with h | h
      · exact Or.inl h
      · exact Or.inr ⟨h.1, hnull', h.2⟩
    | registryLib =>
      rw [processModule_plain items cfg st k v hnull' (Or.inr (Or.inr hv))] at hok
      cases hok
      intro p hp
      rcases addFileUnlessQuery_files_sub p hp with h | h
      · exact Or.inl h
      · exact Or.inr ⟨h.1, hnull', h.2⟩

theorem processModule_registryDependencies {items : List (String × ShadcnItem)} {cfg : String}
    {st st' : ClosureState} {e : String × ShadcnItem}
    (hok : processModule items cfg st e = .ok st') :
    st'.registryDependencies = st.registryDependencies ∨
      (e.2.meta.mtype = .registryShadcn ∧
        st'.registryDependencies = setAdd st.registryDependencies e.2.meta.name) := by
  obtain ⟨k, v⟩ := e
  by_cases hnull : startsWithNull k = true
  · rw [processModule_skip items cfg st k v hnull] at hok
    cases hok
    exact Or.inl rfl
  · have hnull' : startsWithNull k = false := by
      cases h : startsWithNull k
      · rfl
      · exact absurd h hnull
    cases hv : v.meta.mtype with
    | externalDep =>
      rw [processModule_external items cfg st k v hnull' hv] at hok
      cases hok
      exact Or.inl rfl
    | registryShadcn =>
      rw [processModule_shadcn items cfg st k v hnull' hv] at hok
      cases hok
      exact Or.inr ⟨rfl, rfl⟩
    | registryInternal =>
      cases henq : enqueueImports items v.modules st with
      | error err =>
        rw [processModule_internal_err items cfg st k v hnull' hv henq] at hok
        cases hok
      | ok st1 =>
        rw [processModule_internal_ok items cfg st k v hnull' hv henq] at hok
        cases hok
        left
        rw [addFileUnlessQuery_registryDependencies]
        exact (enqueueImports_ok_state henq).2.1
    | registryComponent =>
      rw [processModule_plain items cfg st k v hnull' (Or.inl hv)] at hok
      cases hok
      left
      rw [addFileUnlessQuery_registryDependencies]
    | registryHook =>
      rw [processModule_plain items cfg st k v hnull' (Or.inr (Or.inl hv))] at hok
      cases hok
      left
      rw [addFileUnlessQuery_registryDependencies]
    | registryLib =>
      rw [processModule_plain items cfg st k v hnull' (Or.inr (Or.inr hv))] at hok
      cases hok
      left
      rw [addFileUnlessQuery_registryDependencies]

theorem foldlM_processModule_no_missing (items : List (String × ShadcnItem)) (cfg : String) :
    ∀ (frontier : List (String × ShadcnItem)) (st : ClosureState),
    (∀ e ∈ frontier, e.2.meta.mtype = .registryInternal →
      ∀ d ∈ e.2.modules, (mapGet items d).isSome) →
    ∃ st', frontier.foldlM (processModule items cfg) st = .ok st' := by
  intro frontier
  induction frontier with
  | nil => exact fun st _ => ⟨st, rfl⟩
  | cons e rest ih =>
    intro st hfront
    rcases processModule_no_missing items cfg st e
        (hfront e (List.mem_cons_self e rest)) with ⟨st1, hok⟩
    rw [List.foldlM_cons, hok]
    rcases ih st1 (fun x hx => hfront x (List.mem_cons_of_mem e hx)) with ⟨st', hok'⟩
    exact ⟨st', hok'⟩

theorem foldlM_processModule_next_sub {items : List (String × ShadcnItem)} {cfg : String} :
    ∀ {frontier : List (String × ShadcnItem)} {st st' : ClosureState},
    frontier.foldlM (processModule items cfg) st = .ok st' →
    ∀ p ∈ st'.nextItems, p ∈ st.nextItems ∨ mapGet items p.1 = some p.2 := by
  intro frontier
  induction frontier with
  | nil =>
    intro st st' hok
    cases hok
    exact fun p hp => Or.inl hp
  | cons e rest ih =>
    intro st st' hok
    rw [List.foldlM_cons] at hok
    cases h1 : processModule items cfg st e with
    | error err => rw [h1] at hok; cases hok
    | ok st1 =>
      rw [h1] at hok
      intro p hp
      rcases ih hok p hp with h | h
      · exact processModule_next_sub h1 p h
      · exact Or.inr h

theorem foldlM_processModule_files_sub {items : List (String × ShadcnItem)} {cfg : String} :
    ∀ {frontier : List (String × ShadcnItem)} {st st' : ClosureState},
    frontier.foldlM (processModule items cfg) st = .ok st' →
    ∀ p ∈ st'.files, p ∈ st.files ∨
      ∃ e ∈ frontier, p.1 = e.1 ∧ startsWithNull e.1 = false ∧ containsQuery e.1 = false := by
  intro frontier
  induction frontier with
  | nil =>
    intro st st' hok
    cases hok
    exact fun p hp => Or.inl hp
  | cons e rest ih =>
    intro st st' hok
    rw [List.foldlM_cons] at hok
    cases h1 : processModule items cfg st e with
    | error err => rw [h1] at hok; cases hok
    | ok st1 =>
      rw [h1] at hok
      intro p hp
      rcases ih hok p hp with h | h
      · rcases processModule_files_sub h1 p h with h2 | h2
        · exact Or.inl h2
        · exact Or.inr ⟨e, List.mem_cons_self e rest, h2⟩
      · rcases h with ⟨e', he', hp'⟩
        exact Or.inr ⟨e', List.mem_cons_of_mem e he', hp'⟩

theorem closureLoop_empty (items : List (String × ShadcnItem)) (cfg : String)
    (fuel : Nat) (st : ClosureState) :
    closureLoop items cfg fuel [] st = .ok st := by
  unfold closureLoop
  rfl

theorem closureLoop_zero (items : List (String × ShadcnItem)) (cfg : String)
    (frontier : List (String × ShadcnItem)) (st : ClosureState)
    (hne : frontier.isEmpty = false) :
    closureLoop items cfg 0 frontier st = .error .outOfFuel := by
  conv_lhs => unfold closureLoop
  rw [if_neg (by simp [hne])]

theorem closureLoop_succ_err (items : List (String × ShadcnItem)) (cfg : String)
    (fuel : Nat) (frontier : List (String × ShadcnItem)) (st : ClosureState)
    {e : ClosureErr} (hne : frontier.isEmpty = false)
    (hfold : frontier.foldlM (processModule items cfg) { st with nextItems := [] } = .error e) :
    closureLoop items cfg (fuel + 1) frontier st = .error e := by
  conv_lhs => unfold closureLoop
  rw [if_neg (by simp [hne]), hfold]

theorem closureLoop_succ_ok (items : List (String × ShadcnItem)) (cfg : String)
    (fuel : Nat) (frontier : List (String × ShadcnItem)) (st : ClosureState)
    {st' : ClosureState} (hne : frontier.isEmpty = false)
    (hfold : frontier.foldlM (processModule items cfg) { st with nextItems := [] } = .ok st') :
    closureLoop items cfg (fuel + 1) frontier st =
      closureLoop items cfg fuel st'.nextItems st' := by
  conv_lhs => unfold closureLoop
  rw [if_neg (by simp [hne]), hfold]

theorem closureLoop_no_missing (items : List (String × ShadcnItem)) (cfg : String)
    (hint : ∀ p ∈ items, p.2.meta.mtype = .registryInternal →
      ∀ d ∈ p.2.modules, (mapGet items d).isSome) :
    ∀ fuel (frontier : List (String × ShadcnItem)) (st : ClosureState),
    (∀ p ∈ frontier, p ∈ items) →
    closureLoop items cfg fuel frontier st ≠ .error .missingRecord := by
  intro fuel
  induction fuel with
  | zero =>
    intro frontier st hfront
    cases hfe : frontier with
    | nil =>
      rw [closureLoop_empty]
      intro hcon
      cases hcon
    | cons a rest =>
      rw [closureLoop_zero items cfg (a :: rest) st rfl]
      intro hcon
      cases hcon
  | succ fuel ih =>
    intro frontier st hfront
    cases hfe : frontier with
    | nil =>
      rw [closureLoop_empty]
      intro hcon
      cases hcon
    | cons a rest =>
      subst hfe
      rcases foldlM_processModule_no_missing items cfg (a :: rest) { st with nextItems := [] }
          (fun e he => hint e (hfront e he)) with ⟨st', hfold⟩
      rw [closureLoop_succ_ok items cfg fuel (a :: rest) st rfl hfold]
      apply ih
      intro p hp
      rcases foldlM_processModule_next_sub hfold p hp with h | h
      · cases h
      · exact mem_of_mapGet_eq_some h

theorem closureLoop_files_clean (items : List (String × ShadcnItem)) (cfg : String) :
    ∀ fuel (frontier : List (String × ShadcnItem)) (st res : ClosureState),
    closureLoop items cfg fuel frontier st = .ok res →
    (∀ p ∈ st.files, startsWithNull p.1 = false ∧ containsQuery p.1 = false) →
    ∀ p ∈ res.files, startsWithNull p.1 = false ∧ containsQuery p.1 = false := by
  intro fuel
  induction fuel with
  | zero =>
    intro frontier st res hok hclean
    cases hfe : frontier with
    | nil =>
      subst hfe
      rw [closureLoop_empty] at hok
      cases hok
      exact hclean
    | cons a rest =>
      subst hfe
      rw [closureLoop_zero items cfg (a :: rest) st rfl] at hok
      cases hok
  | succ fuel ih =>
    intro frontier st res hok hclean
    cases hfe : frontier with
    | nil =>
      subst hfe
      rw [closureLoop_empty] at hok
      cases hok
      exact hclean
    | cons a rest =>
      subst hfe
      cases hfold : (a :: rest).foldlM (processModule items cfg) { st with nextItems := [] } with
      | error e =>
        rw [closureLoop_succ_err items cfg fuel (a :: rest) st rfl hfold] at hok
        cases hok
      | ok st' =>
        rw [closureLoop_succ_ok items cfg fuel (a :: rest) st rfl hfold] at hok
        apply ih _ _ _ hok
        intro p hp
        rcases foldlM_processModule_files_sub hfold p hp with h | h
        · exact hclean p h
        · rcases h with ⟨e, _, hpe, hn, hq⟩
          exact ⟨hpe ▸ hn, hpe ▸ hq⟩

/-- The result record of createShadcnItemDependencies. -/
structure ShadcnItemDependencies where
  dependencies : List String
  registryDependencies : List String
  files : List RegistryItemFile
deriving DecidableEq, Repr

/-- The closure builder (source: createShadcnItemDependencies): the final
state with the files map spread into its values. -/
def createShadcnItemDependencies (fuel : Nat) (id : String)
    (originalItems : List (String × ShadcnItem)) (configRootDir : String) :
    Except ClosureErr ShadcnItemDependencies :=
  (createShadcnItemDependenciesAcc fuel id originalItems configRootDir).map
    (fun st =>
      { dependencies := st.dependencies
        registryDependencies := st.registryDependencies
        files := st.files.map (fun p => p.2) })

/-- One finished catalog entry (source: the object passed to addItem in
buildEnd): name, category and the three collections. -/
structure RegistryItem where
  name : String
  rtype : ShadcnItemType
  files : List RegistryItemFile
  dependencies : List String
  registryDependencies : List String
deriving DecidableEq, Repr

/-- The registry store (source: RegistryImpl): a display name, a homepage and
the name-keyed insertion-ordered item map. -/
structure RegistryImpl where
  name : String
  homepage : String
  itemsMap : List (String × RegistryItem)
deriving DecidableEq, Repr

/-- The constructor of RegistryImpl: an empty item map. -/
def RegistryImpl.new (name homepage : String) : RegistryImpl :=
  { name := name, homepage := homepage, itemsMap := [] }

/-- The items getter (source: `[...this.#itemsMap.values()]`). -/
def RegistryImpl.items (r : RegistryImpl) : List RegistryItem :=
  r.itemsMap.map (fun p => p.2)

/-- The lookup (source: `this.#itemsMap.get(name) || null`). -/
def RegistryImpl.getItem (r : RegistryImpl) (n : String) : Option RegistryItem :=
  mapGet r.itemsMap n

/-- The insertion (source: `this.#itemsMap.set(item.name, item)`). -/
def RegistryImpl.addItem (r : RegistryImpl) (item : RegistryItem) : RegistryImpl :=
  { r with itemsMap := mapSet r.itemsMap item.name item }

/-- A whole sequence of addItem calls, first to last. -/
def RegistryImpl.addItems (r : RegistryImpl) (l : List RegistryItem) : RegistryImpl :=
  l.foldl RegistryImpl.addItem r

theorem getItem_addItem (r : RegistryImpl) (i : RegistryItem) (n : String) :
    (r.addItem i).getItem n = if i.name = n then some i else r.getItem n := by
  unfold RegistryImpl.getItem RegistryImpl.addItem
  by_cases h : i.name = n
  · rw [if_pos h, ← h]
    exact mapGet_mapSet_self r.itemsMap i.name i
  · rw [if_neg h]
    exact mapGet_mapSet_ne r.itemsMap i.name n i (fun he => h he.symm)

theorem getItem_addItems (l : List RegistryItem) :
    ∀ (r : RegistryImpl) (n : String),
    (r.addItems l).getItem n =
      (l.reverse.find? (fun i => i.name = n)).orElse (fun _ => r.getItem n) := by
  induction l with
  | nil =>
    intro r n
    simp [RegistryImpl.addItems]
  | cons i rest ih =>
    intro r n
    have hstep : (r.addItems (i :: rest)) = ((r.addItem i).addItems rest) := rfl
    rw [hstep, ih, List.reverse_cons, List.find?_append, getItem_addItem]
    cases hfind : rest.reverse.find? (fun i => i.name = n) with
    | some j => rfl
    | none =>
      by_cases h : i.name = n
      · simp [Option.orElse, List.find?, h]
      · simp [Option.orElse, List.find?, h]

/-- Every key of the item map is its item's name. -/
def KeyInv (r : RegistryImpl) : Prop :=
  ∀ p ∈ r.itemsMap, p.2.name = p.1

theorem keyInv_addItem {r : RegistryImpl} (hr : KeyInv r) (i : RegistryItem) :
    KeyInv (r.addItem i) := by
  intro p hp
  rcases mem_mapSet hp with he | he
  · rw [he]
  · exact hr p he

theorem keys_nodup_addItem {r : RegistryImpl} (hr : (r.itemsMap.map Prod.fst).Nodup)
    (i : RegistryItem) : ((r.addItem i).itemsMap.map Prod.fst).Nodup :=
  keys_mapSet_nodup i hr

theorem mem_keys_addItem {r : RegistryImpl} {i : RegistryItem} {n : String} :
    n ∈ (r.addItem i).itemsMap.map Prod.fst ↔ n ∈ r.itemsMap.map Prod.fst ∨ n = i.name :=
  mem_keys_mapSet

theorem addItems_invariants (l : List RegistryItem) :
    ∀ (r : RegistryImpl), KeyInv r → (r.itemsMap.map Prod.fst).Nodup →
    KeyInv (r.addItems l) ∧ ((r.addItems l).itemsMap.map Prod.fst).Nodup ∧
      (∀ n, n ∈ (r.addItems l).itemsMap.map Prod.fst ↔
        n ∈ r.itemsMap.map Prod.fst ∨ ∃ i ∈ l, i.name = n) := by
  induction l with
  | nil =>
    intro r hk hnd
    refine ⟨hk, hnd, fun n => ?_⟩
    constructor
    · exact fun h => Or.inl h
    · intro h
      rcases h with h | ⟨i, hi, _⟩
      · exact h
      · cases hi
  | cons i rest ih =>
    intro r hk hnd
    have hstep : (r.addItems (i :: rest)) = ((r.addItem i).addItems rest) := rfl
    rw [hstep]
    rcases ih (r.addItem i) (keyInv_addItem hk i) (keys_nodup_addItem hnd i) with ⟨h1, h2, h3⟩
    refine ⟨h1, h2, fun n => ?_⟩
    rw [h3 n, mem_keys_addItem]
    constructor
    · intro h
      rcases h with (h | h) | ⟨j, hj, hn⟩
      · exact Or.inl h
      · exact Or.inr ⟨i, List.mem_cons_self i rest, h.symm⟩
      · exact Or.inr ⟨j, List.mem_cons_of_mem i hj, hn⟩
    · intro h
      rcases h with h | ⟨j, hj, hn⟩
      · exact Or.inl (Or.inl h)
      · rcases List.mem_cons.mp hj with hc | hc
        · exact Or.inl (Or.inr (hc ▸ hn).symm)
        · exact Or.inr ⟨j, hc, hn⟩

theorem items_names_eq_keys {r : RegistryImpl} (hk : KeyInv r) :
    r.items.map (fun i => i.name) = r.itemsMap.map Prod.fst := by
  unfold RegistryImpl.items
  rw [List.map_map]
  exact List.map_congr_left (fun p hp => hk p hp)

/-- A worked example: item A at `/p/src/components/alpha.ts`. -/
def exampleTarget : String := "/p/src/components/alpha.ts"

/-- The internal helper B imported by A. -/
def exampleHelperId : String := "/p/src/lib/helper.ts"

/-- The file-producing component C imported by B. -/
def exampleLeafId : String := "/p/src/components/beta.ts"

/-- The record of the internal helper B: it imports C. -/
def exampleHelperItem : ShadcnItem :=
  { meta := { name := exampleHelperId, mtype := .registryInternal }
    modules := [exampleLeafId]
    code := some "codeB" }

/-- The record of the leaf component C. -/
def exampleLeafItem : ShadcnItem :=
  { meta := { name := "beta", mtype := .registryComponent }
    modules := []
    code := some "codeC" }

/-- A record map with the chain A imports internal B imports component C. -/
def exampleItems : List (String × ShadcnItem) :=
  [ (exampleTarget,
      { meta := { name := "alpha", mtype := .registryComponent }
        modules := [exampleHelperId]
        code := some "codeA" }),
    (exampleHelperId, exampleHelperItem),
    (exampleLeafId, exampleLeafItem) ]

/-- A record map where the target's only direct import is absent. -/
def exampleGhostItems : List (String × ShadcnItem) :=
  [ (exampleTarget,
      { meta := { name := "alpha", mtype := .registryComponent }
        modules := ["/p/src/ghost.ts"]
        code := some "codeA" }) ]

/-- A two-node cyclic import graph A imports B imports A. -/
def exampleCycleGraph : List (String × ModuleInfo) :=
  [ ("A", { importedIds := ["B"], dynamicallyImportedIds := [], sourceCode := none }),
    ("B", { importedIds := ["A"], dynamicallyImportedIds := [], sourceCode := none }) ]

/-- Filters under which only the single utility module matches. -/
def exampleUtilFilters : ClassifierFilters :=
  { isShadcnComponent := fun _ => false
    isComponent := fun _ => false
    isComposable := fun _ => false
    isUtil := fun i => i == "/proj/src/utils/cn.ts" }

/-- The all-empty closure state. -/
def emptyClosureState : ClosureState :=
  { dependencies := [], registryDependencies := [], files := [], nextItems := [] }

/-- The keyed closure state computed for the example chain. -/
def exampleClosureState : ClosureState :=
  { dependencies := []
    registryDependencies := []
    files :=
      [ (exampleTarget,
          { ftype := "registry:file", path := "src/components/alpha.ts"
            target := "src/components/alpha.ts", content := some "codeA" }),
        (exampleHelperId,
          { ftype := "registry:file", path := "src/lib/helper.ts"
            target := "src/lib/helper.ts", content := some "codeB" }),
        (exampleLeafId,
          { ftype := "registry:file", path := "src/components/beta.ts"
            target := "src/components/beta.ts", content := some "codeC" }) ]
    nextItems := [] }

/-- An internal record declaring an import that is in no record map. -/
def exampleBrokenInternal : ShadcnItem :=
  { meta := { name := "/p/src/x.ts", mtype := .registryInternal }
    modules := ["/p/missing.ts"]
    code := none }

/-- A shadcn-primitive record, as the classifier produces for the ui root. -/
def exampleShadcnEntry : String × ShadcnItem :=
  ("/p/src/components/ui/button/index.ts",
    { meta := { name := "button", mtype := .registryShadcn }
      modules := []
      code := none })

/-- C1: a frontier module classified Internal whose identity has no
synthetic-internal prefix both enqueues all of its direct imports into the
next frontier and adds itself as a file unless its identity carries a query
fragment; consequently the closure of item A, which imports internal helper
B, which imports file-producing component C, contains the file entries of A,
B and C. -/
theorem claim_C1 :
    (∀ (items : List (String × ShadcnItem)) (cfg : String) (st : ClosureState)
      (k : String) (v : ShadcnItem),
      v.meta.mtype = .registryInternal → startsWithNull k = false →
      (∀ d ∈ v.modules, (mapGet items d).isSome) →
      ∃ st', processModule items cfg st (k, v) = .ok st' ∧
        (∀ d ∈ v.modules, mapGet st'.nextItems d = mapGet items d) ∧
        (containsQuery k = false → (mapGet st'.files k).isSome)) ∧
    createShadcnItemDependencies 4 exampleTarget exampleItems "/p" = .ok
      { dependencies := []
        registryDependencies := []
        files :=
          [ { ftype := "registry:file", path := "src/components/alpha.ts"
              target := "src/components/alpha.ts", content := some "codeA" },
            { ftype := "registry:file", path := "src/lib/helper.ts"
              target := "src/lib/helper.ts", content := some "codeB" },
            { ftype := "registry:file", path := "src/components/beta.ts"
              target := "src/components/beta.ts", content := some "codeC" } ] } := by
  constructor
  · intro items cfg st k v hv hnull hpresent
    rcases enqueueImports_ok_of_present st hpresent with
      ⟨st1, henq, hdeps, hreg, hfiles, hnext, hout, hin⟩
    refine ⟨addFileUnlessQuery items cfg st1 k,
      processModule_internal_ok items cfg st k v hnull hv henq, ?_, ?_⟩
    · intro d hd
      rw [addFileUnlessQuery_nextItems]
      exact hin d hd
    · intro hq
      rw [addFileUnlessQuery_files_of_not_query items cfg st1 k hq, mapGet_mapSet_self]
      rfl
  · rfl

/-- C1 witness: the single-step statement applied to the internal helper B
of the example map, with every hypothesis discharged concretely. -/
theorem claim_C1_witness :
    ∃ st', processModule exampleItems "/p" emptyClosureState
        (exampleHelperId, exampleHelperItem) = .ok st' ∧
      (∀ d ∈ exampleHelperItem.modules, mapGet st'.nextItems d = mapGet exampleItems d) ∧
      (containsQuery exampleHelperId = false → (mapGet st'.files exampleHelperId).isSome) :=
  claim_C1.1 exampleItems "/p" emptyClosureState exampleHelperId exampleHelperItem rfl
    (by decide) (by decide)

/-- C2: a frontier module classified Component, Hook or Lib (no
synthetic-internal prefix) is added as a file of the enclosing item while
the next frontier, the registry dependencies and the dependencies stay
unchanged; and a successful step only ever changes the registry-dependency
set for a ShadcnPrimitive module. -/
theorem claim_C2 :
    (∀ (items : List (String × ShadcnItem)) (cfg : String) (st : ClosureState)
      (k : String) (v : ShadcnItem),
      (v.meta.mtype = .registryComponent ∨ v.meta.mtype = .registryHook ∨
        v.meta.mtype = .registryLib) → startsWithNull k = false →
      processModule items cfg st (k, v) = .ok (addFileUnlessQuery items cfg st k) ∧
      (addFileUnlessQuery items cfg st k).nextItems = st.nextItems ∧
      (addFileUnlessQuery items cfg st k).registryDependencies = st.registryDependencies ∧
      (addFileUnlessQuery items cfg st k).dependencies = st.dependencies ∧
      (containsQuery k = false →
        (mapGet (addFileUnlessQuery items cfg st k).files k).isSome)) ∧
    (∀ (items : List (String × ShadcnItem)) (cfg : String) (st st' : ClosureState)
      (e : String × ShadcnItem),
      processModule items cfg st e = .ok st' →
      st'.registryDependencies ≠ st.registryDependencies →
      e.2.meta.mtype = .registryShadcn) := by
  constructor
  · intro items cfg st k v hv hnull
    refine ⟨processModule_plain items cfg st k v hnull hv,
      addFileUnlessQuery_nextItems items cfg st k,
      addFileUnlessQuery_registryDependencies items cfg st k,
      addFileUnlessQuery_dependencies items cfg st k, ?_⟩
    intro hq
    rw [addFileUnlessQuery_files_of_not_query items cfg st k hq, mapGet_mapSet_self]
    rfl
  · intro items cfg st st' e hok hne
    rcases processModule_registryDependencies hok with h | h
    · exact absurd h hne
    · exact h.1

/-- C2 witness: the file-only step applied to the example leaf component,
and the only-primitives-contribute statement applied to a shadcn entry whose
step visibly grows the registry-dependency set. -/
theorem claim_C2_witness :
    (processModule exampleItems "/p" emptyClosureState (exampleLeafId, exampleLeafItem)
        = .ok (addFileUnlessQuery exampleItems "/p" emptyClosureState exampleLeafId) ∧
      (addFileUnlessQuery exampleItems "/p" emptyClosureState exampleLeafId).nextItems
        = emptyClosureState.nextItems ∧
      (addFileUnlessQuery exampleItems "/p" emptyClosureState exampleLeafId).registryDependencies
        = emptyClosureState.registryDependencies ∧
      (addFileUnlessQuery exampleItems "/p" emptyClosureState exampleLeafId).dependencies
        = emptyClosureState.dependencies ∧
      (containsQuery exampleLeafId = false →
        (mapGet (addFileUnlessQuery exampleItems "/p" emptyClosureState exampleLeafId).files
          exampleLeafId).isSome)) ∧
    exampleShadcnEntry.2.meta.mtype = .registryShadcn :=
  ⟨claim_C2.1 exampleItems "/p" emptyClosureState exampleLeafId exampleLeafItem
      (Or.inl rfl) (by decide),
   claim_C2.2 exampleItems "/p" emptyClosureState
      { emptyClosureState with registryDependencies := ["button"] } exampleShadcnEntry rfl
      (by decide)⟩

/-- C3: a successfully built closure state holds no file entry keyed by an
identity with the synthetic-internal marker prefix or a query-delimiter
fragment; and a frontier entry with the marker prefix is skipped entirely,
leaving the whole state (files, dependencies, cross-references and next
frontier) untouched. -/
theorem claim_C3 :
    (∀ (fuel : Nat) (id : String) (items : List (String × ShadcnItem)) (cfg : String)
      (st : ClosureState),
      createShadcnItemDependenciesAcc fuel id items cfg = .ok st →
      ∀ p ∈ st.files, startsWithNull p.1 = false ∧ containsQuery p.1 = false) ∧
    (∀ (items : List (String × ShadcnItem)) (cfg : String) (st : ClosureState)
      (k : String) (v : ShadcnItem), startsWithNull k = true →
      processModule items cfg st (k, v) = .ok st) := by
  constructor
  · intro fuel id items cfg st hok
    exact closureLoop_files_clean items cfg fuel (closureSeed id items) _ st hok
      (fun p hp => absurd hp (List.not_mem_nil p))
  · exact fun items cfg st k v h => processModule_skip items cfg st k v h

/-- C3 witness: the invariant applied to the example closure run, and the
skip statement applied to the virtual-module id of the plugin. -/
theorem claim_C3_witness :
    (∀ p ∈ exampleClosureState.files,
      startsWithNull p.1 = false ∧ containsQuery p.1 = false) ∧
    processModule exampleItems "/p" emptyClosureState
      ("\x00virtual:shadcn-registry", exampleHelperItem) = .ok emptyClosureState :=
  ⟨claim_C3.1 4 exampleTarget exampleItems "/p" exampleClosureState rfl,
   claim_C3.2 exampleItems "/p" emptyClosureState "\x00virtual:shadcn-registry"
      exampleHelperItem (by decide)⟩

/-- C4: on a record map with duplicate-free keys whose import edges stay in
the map, the graph walker terminates successfully from any root in the map
and returns a duplicate-free list holding exactly the identities transitively
reachable from the root along static or dynamic imports. -/
theorem claim_C4 (g : List (String × ModuleInfo)) (root : String)
    (hkeys : (g.map Prod.fst).Nodup) (hclosed : ClosedGraph g)
    (hroot : root ∈ g.map Prod.fst) :
    ∃ v, getHoistedImportedIds g root = .ok v ∧ v.Nodup ∧
      ∀ x, x ∈ v ↔ Reach g root x := by
  rcases walkAux_ok g hclosed hkeys (g.length + 1) [] [root] List.nodup_nil
      (fun x hx => absurd hx (List.not_mem_nil x))
      (fun x hx => (List.mem_singleton.mp hx) ▸ hroot)
      (by omega) with ⟨v, hok⟩
  refine ⟨v, hok, walkAux_nodup g (g.length + 1) [] [root] v hok List.nodup_nil,
    fun x => ⟨?_, ?_⟩⟩
  · intro hx
    exact walkAux_sound g root (g.length + 1) [] [root] v hok
      (fun y hy => absurd hy (List.not_mem_nil y))
      (fun f hf => Or.inl (List.mem_singleton.mp hf)) x hx
  · intro hreach
    rcases walkAux_final g (g.length + 1) [] [root] v hok
        (fun y hy => absurd hy (List.not_mem_nil y)) with ⟨_, hfr, hcl⟩
    induction hreach with
    | base h => exact hfr root (List.mem_singleton_self root) h
    | step hy hx ih => exact hcl _ ih hx

/-- C4 witness: the walker statement applied to the cyclic graph in which
A imports B and B imports A. -/
theorem claim_C4_witness :
    ∃ v, getHoistedImportedIds exampleCycleGraph "A" = .ok v ∧ v.Nodup ∧
      ∀ x, x ∈ v ↔ Reach exampleCycleGraph "A" x :=
  claim_C4 exampleCycleGraph "A" (by decide) (by decide) (by decide)

/-- C5: an Internal frontier module declaring an import absent from the
record map makes the builder fail with the fatal missing-record error; and
when every import of every Internal record in the map is present, the whole
closure construction never raises that error. -/
theorem claim_C5 :
    (∀ (items : List (String × ShadcnItem)) (cfg : String) (st : ClosureState)
      (k : String) (v : ShadcnItem),
      v.meta.mtype = .registryInternal → startsWithNull k = false →
      (∃ d ∈ v.modules, mapGet items d = none) →
      processModule items cfg st (k, v) = .error .missingRecord) ∧
    (∀ (fuel : Nat) (id : String) (items : List (String × ShadcnItem)) (cfg : String),
      (∀ p ∈ items, p.2.meta.mtype = .registryInternal →
        ∀ d ∈ p.2.modules, (mapGet items d).isSome) →
      createShadcnItemDependencies fuel id items cfg ≠ .error .missingRecord) := by
  constructor
  · intro items cfg st k v hv hnull hmiss
    exact processModule_internal_err items cfg st k v hnull hv
      (enqueueImports_error_of_missing hmiss)
  · intro fuel id items cfg hint hcon
    have hseed : ∀ p ∈ closureSeed id items, p ∈ items :=
      fun p hp => List.mem_of_mem_filter hp
    have hloop := closureLoop_no_missing items cfg hint fuel (closureSeed id items)
      { dependencies := [], registryDependencies := [], files := [], nextItems := [] } hseed
    unfold createShadcnItemDependencies createShadcnItemDependenciesAcc at hcon
    cases hacc : closureLoop items cfg fuel (closureSeed id items)
        { dependencies := [], registryDependencies := [], files := [], nextItems := [] } with
    | error e =>
      rw [hacc] at hcon
      cases e with
      | missingRecord => exact hloop hacc
      | outOfFuel => simp [Except.map] at hcon
    | ok st =>
      rw [hacc] at hcon
      simp [Except.map] at hcon

/-- C5 witness: the fatal statement applied to an internal record with a
missing import, and the no-error statement applied to the example map. -/
theorem claim_C5_witness :
    processModule [] "/p" emptyClosureState ("/p/src/x.ts", exampleBrokenInternal)
      = .error .missingRecord ∧
    createShadcnItemDependencies 4 exampleTarget exampleItems "/p"
      ≠ .error .missingRecord :=
  ⟨claim_C5.1 [] "/p" emptyClosureState "/p/src/x.ts" exampleBrokenInternal rfl (by decide)
      ⟨"/p/missing.ts", by decide, rfl⟩,
   claim_C5.2 4 exampleTarget exampleItems "/p" (by decide)⟩

/-- C6 counterexample: the flat utility module `/proj/src/utils/cn.ts` is
classified Lib, but its catalog name is "utils", not the kebab-case of its
base name "cn" as the claim states. -/
theorem claim_C6_counterexample :
    getShadcnItemMeta exampleUtilFilters "/proj" ⟨"/proj/src/utils/cn.ts", false⟩
      = { name := "utils", mtype := .registryLib } ∧
    stripExt "cn.ts" = "cn" ∧
    ("utils" : String) ≠ kebabCase "cn" := by
  refine ⟨rfl, by decide, by decide⟩

/-- C6 amended: a module matching only the utilities filter is classified
Lib with a name derived relative to the source root (`src`), not the
utilities root; for any flat utility `<root>/src/utils/<base>` the relative
path's parent directory segment is `utils`, so the catalog name is always
"utils", not the file's base name. -/
theorem claim_C6 :
    (∀ (fl : ClassifierFilters) (cfg id : String) (ext : Bool),
      fl.isShadcnComponent id = false → fl.isComponent id = false →
      fl.isComposable id = false → fl.isUtil id = true →
      getShadcnItemMeta fl cfg ⟨id, ext⟩ =
        { name := getRegistryItemName id cfg srcDir, mtype := .registryLib }) ∧
    (∀ (configRoot fileBase : String), CleanQ configRoot.data → CleanQ fileBase.data →
      (∀ c ∈ fileBase.data, c ≠ '/') → fileBase ≠ "" →
      getRegistryItemName (posixJoin configRoot srcDir ++ "/utils/" ++ fileBase)
        configRoot srcDir = "utils") := by
  constructor
  · intro fl cfg id ext h1 h2 h3 h4
    simp [getShadcnItemMeta, h1, h2, h3, h4]
  · intro configRoot fileBase hq1 hq3 hslash hne
    exact getRegistryItemName_utils configRoot fileBase hq1 hq3 hslash hne

/-- C6 witness: both amended statements applied to the concrete utility
module `/proj/src/utils/cn.ts`. -/
theorem claim_C6_witness :
    getShadcnItemMeta exampleUtilFilters "/proj" ⟨"/proj/src/utils/cn.ts", false⟩
      = { name := getRegistryItemName "/proj/src/utils/cn.ts" "/proj" srcDir
          mtype := .registryLib } ∧
    getRegistryItemName (posixJoin "/proj" srcDir ++ "/utils/" ++ "cn.ts") "/proj" srcDir
      = "utils" :=
  ⟨claim_C6.1 exampleUtilFilters "/proj" "/proj/src/utils/cn.ts" false rfl rfl rfl (by decide),
   claim_C6.2 "/proj" "cn.ts" (by decide) (by decide) (by decide) (by decide)⟩

/-- C7: for any clean root, type directory and slash-free non-empty base
name, the directory-with-index layout `<root>/<typ>/<name>/index.ts` and the
single-file layout `<root>/<typ>/<name>.ts` derive the same catalog name,
the kebab-case of the base name. -/
theorem claim_C7 (configRoot typ name : String) (hq1 : CleanQ configRoot.data)
    (hq2 : CleanQ typ.data) (hq3 : CleanQ name.data)
    (hslash : ∀ c ∈ name.data, c ≠ '/') (hne : name ≠ "") :
    getRegistryItemName (posixJoin configRoot typ ++ "/" ++ name ++ "/index.ts")
      configRoot typ = kebabCase name ∧
    getRegistryItemName (posixJoin configRoot typ ++ "/" ++ name ++ ".ts")
      configRoot typ = kebabCase name :=
  ⟨getRegistryItemName_dir_index configRoot typ name hq1 hq2 hq3 hslash hne,
   getRegistryItemName_single_file configRoot typ name hq1 hq2 hq3 hslash hne⟩

/-- C7 witness: both layouts of `foo-bar` under `/proj/src/components`
derive the name `foo-bar`. -/
theorem claim_C7_witness :
    (getRegistryItemName (posixJoin "/proj" "src/components" ++ "/" ++ "foo-bar" ++ "/index.ts")
        "/proj" "src/components" = kebabCase "foo-bar" ∧
      getRegistryItemName (posixJoin "/proj" "src/components" ++ "/" ++ "foo-bar" ++ ".ts")
        "/proj" "src/components" = kebabCase "foo-bar") ∧
    kebabCase "foo-bar" = "foo-bar" :=
  ⟨claim_C7 "/proj" "src/components" "foo-bar" (by decide) (by decide) (by decide)
      (by decide) (by decide), by decide⟩

/-- C8: the registry store is an insertion-ordered name-keyed collection:
after any sequence of addItem calls, getItem returns the most recently added
item carrying the looked-up name (none when there is none, so a later insert
under the same name overwrites the earlier one), and the items list carries
exactly one entry per distinct inserted name. -/
theorem claim_C8 (nm hp : String) (l : List RegistryItem) (n : String) :
    ((RegistryImpl.new nm hp).addItems l).getItem n
      = l.reverse.find? (fun i => i.name = n) ∧
    (((RegistryImpl.new nm hp).addItems l).items.map (fun i => i.name)).Nodup ∧
    (∀ m, m ∈ ((RegistryImpl.new nm hp).addItems l).items.map (fun i => i.name) ↔
      ∃ i ∈ l, i.name = m) := by
  have hbase : (RegistryImpl.new nm hp).getItem n = none := rfl
  rcases addItems_invariants l (RegistryImpl.new nm hp)
      (fun p hp' => absurd hp' (List.not_mem_nil p)) List.nodup_nil with ⟨hk, hnd, hmem⟩
  refine ⟨?_, ?_, ?_⟩
  · rw [getItem_addItems l (RegistryImpl.new nm hp) n, hbase]
    cases l.reverse.find? (fun i => i.name = n) <;> rfl
  · rw [items_names_eq_keys hk]
    exact hnd
  · intro m
    rw [items_names_eq_keys hk, hmem m]
    constructor
    · intro h
      rcases h with h | h
      · exact absurd h (List.not_mem_nil m)
      · exact h
    · exact fun h => Or.inr h

/-- C9 counterexample: the module record built by buildEnd lists the
dynamic import before the static import, so its import list is not
static-first as the claim states. -/
theorem claim_C9_counterexample :
    (mkShadcnItem { name := "m", mtype := .registryComponent }
        { importedIds := ["s"], dynamicallyImportedIds := ["d"], sourceCode := none }).modules
      ≠ ({ importedIds := ["s"], dynamicallyImportedIds := ["d"], sourceCode := none }
            : ModuleInfo).importedIds ++
        ({ importedIds := ["s"], dynamicallyImportedIds := ["d"], sourceCode := none }
            : ModuleInfo).dynamicallyImportedIds := by
  decide

/-- C9 amended: the graph walker consumes each module's static imports
before its dynamic imports, but the module records consumed by the closure
builder list dynamic imports before static imports. -/
theorem claim_C9 (meta : ShadcnItemMeta) (mi : ModuleInfo) :
    walkerImportList mi = mi.importedIds ++ mi.dynamicallyImportedIds ∧
    (mkShadcnItem meta mi).modules = mi.dynamicallyImportedIds ++ mi.importedIds :=
  ⟨rfl, rfl⟩

/-- C10: a target identity absent from the record map yields the empty
result with no error; an import identity absent from the map never enters
the seed frontier; and a present target whose only direct import is absent
still builds normally, silently dropping the absent import. -/
theorem claim_C10 :
    (∀ (fuel : Nat) (id : String) (items : List (String × ShadcnItem)) (cfg : String),
      mapGet items id = none →
      createShadcnItemDependencies fuel id items cfg =
        .ok { dependencies := [], registryDependencies := [], files := [] }) ∧
    (∀ (id imp : String) (items : List (String × ShadcnItem)),
      mapGet items imp = none → imp ∉ (closureSeed id items).map Prod.fst) ∧
    createShadcnItemDependencies 4 exampleTarget exampleGhostItems "/p" =
      .ok { dependencies := [], registryDependencies := []
            files := [ { ftype := "registry:file", path := "src/components/alpha.ts"
                         target := "src/components/alpha.ts", content := some "codeA" } ] } := by
  refine ⟨?_, ?_, rfl⟩
  · intro fuel id items cfg hnone
    have hseed : closureSeed id items = [] := by
      unfold closureSeed
      rw [List.filter_eq_nil_iff]
      intro p hp
      rw [hnone]
      have hne : p.1 ≠ id := (mapGet_eq_none_iff items id).mp hnone p hp
      simp [hne]
    unfold createShadcnItemDependencies createShadcnItemDependenciesAcc
    rw [hseed, closureLoop_empty]
    rfl
  · intro id imp items hnone hmem
    rcases List.mem_map.mp hmem with ⟨p, hp, he⟩
    have hpitems : p ∈ items := List.mem_of_mem_filter hp
    have hsome : (mapGet items p.1).isSome := mapGet_isSome_of_mem hpitems
    rw [he, hnone] at hsome
    cases hsome

/-- C10 witness: the absent-target statement applied to an id outside the
example map, and the absent-import statement applied to the ghost import of
the ghost example map. -/
theorem claim_C10_witness :
    createShadcnItemDependencies 4 "/p/absent.ts" exampleItems "/p" =
      .ok { dependencies := [], registryDependencies := [], files := [] } ∧
    "/p/src/ghost.ts" ∉ (closureSeed exampleTarget exampleGhostItems).map Prod.fst :=
  ⟨claim_C10.1 4 "/p/absent.ts" exampleItems "/p" (by decide),
   claim_C10.2.1 exampleTarget "/p/src/ghost.ts" exampleGhostItems (by decide)⟩

end ShadcnRegistry
